import Mathlib

/-!
Verification of the hierarchical storage-usage aggregation engine of
`src/web/src/pages/storage.ts` (functions `normalizePath`, `latestTimestamp`,
`formatNodeId`, `displayName`, `buildStorageNodes`, `buildStorageTree`,
`buildStorageEntriesFor`).

Embedding conventions:
* JavaScript strings are Lean `String`s; character-level reasoning goes
  through `String.data`.
* JavaScript `Map`/`Set` (insertion-ordered) are association lists; `Map.set`
  on an existing key updates in place, a new key is appended at the end.
* JavaScript numbers holding byte counts are `Int`; the percentage (a float
  in the source) is modelled as an exact rational `ℚ`.
* `Array.prototype.sort` with a consistent comparator is a stable sort and is
  modelled by an insertion sort that inserts each element after every earlier
  element the comparator does not place strictly later.
* The recursion of `buildStorageEntriesFor` terminates in the source because
  child paths strictly lengthen; the embedding uses a fuel argument, and the
  top-level call supplies fuel that bounds the recursion depth (every level of
  the recursion consumes a distinct key of the statistics map).
-/

/-- The record type of a single file, one `StorageUsageFile` of the API.
Modelled from the spec: the TypeScript declaration of `StorageUsageFile`
lives in `src/web/src/api.ts` outside the provided sources; §3 of the spec
(FileRecord) gives its fields: `node_id` an opaque byte sequence, `node_name`
an optional display name, `path` an unnormalized string, `size` an integer
byte count, `last_changed` an optional timestamp string.  This matches every
use of the type inside `storage.ts`. -/
structure StorageUsageFile where
  node_id : List Nat
  node_name : Option String
  path : String
  size : Int
  last_changed : Option String
deriving DecidableEq

/-- Per-path accumulated statistics (`EntryStats` in the source). -/
structure EntryStats where
  size : Int
  itemCount : Nat
  lastChanged : Option String
deriving DecidableEq

/-- One row of the output tree (`StorageEntry` in the source); `percent` is
the float of the source modelled as an exact rational. -/
structure StorageEntry where
  path : String
  name : String
  size : Int
  itemCount : Nat
  lastChanged : Option String
  percent : ℚ
  children : List StorageEntry

/-- One per-node group of the output (`StorageNode` in the source). -/
structure StorageNode where
  name : String
  id : String
  totalSize : Int
  entries : List StorageEntry

/-- Is a character the path separator? -/
def isSlash (c : Char) : Bool := c = '/'

/-- `value.replace(/\\/g, "/")` at the character level. -/
def replaceBackslashes (l : List Char) : List Char :=
  l.map (fun c => if c = '\\' then '/' else c)

/-- `.replace(/\/+$/, "")`: drop every trailing slash. -/
def dropTrailingSlashes (l : List Char) : List Char :=
  (l.reverse.dropWhile isSlash).reverse

/-- `normalizePath` of the source: backslashes to slashes, then strip leading
and trailing slashes. -/
def normalizePath (s : String) : String :=
  ⟨dropTrailingSlashes ((replaceBackslashes s.data).dropWhile isSlash)⟩

/-- `latestTimestamp` of the source: the guards `if (!current)` and
`if (!candidate)` test JavaScript falsiness, so the empty string counts as a
missing timestamp on either side; with both timestamps non-empty the result
is `current >= candidate ? current : candidate`. -/
def latestTimestamp (current candidate : Option String) : Option String :=
  match current with
  | none => candidate
  | some c =>
    if c = "" then candidate
    else
      match candidate with
      | none => some c
      | some d => if d = "" then some c else if c < d then some d else some c

/-- One hex byte: `b.toString(16).padStart(2, "0")`. -/
def byteToHex (b : Nat) : String :=
  let s : String := ⟨Nat.toDigits 16 b⟩
  if s.length < 2 then ⟨List.replicate (2 - s.length) ('0')⟩ ++ s else s

/-- `formatNodeId` of the source. -/
def formatNodeId (bytes : List Nat) : String :=
  if bytes = [] then "unknown"
  else (bytes.map byteToHex).foldl (fun a b => a ++ b) ""

/-- `String.prototype.split("/")` at the character level.  JavaScript `split`
never returns an empty array: the empty string splits to `[""]`. -/
def splitSlash : List Char → List (List Char)
  | [] => [[]]
  | c :: rest =>
    if isSlash c then [] :: splitSlash rest
    else
      match splitSlash rest with
      | [] => [[c]]
      | t :: ts => (c :: t) :: ts

/-- `path.split("/")` on strings. -/
def splitOnSlash (s : String) : List String :=
  (splitSlash s.data).map (fun cs => ⟨cs⟩)

/-- `displayName` of the source: the last nonempty segment, `"Root"` for the
empty path (or a path with no nonempty segment). -/
def displayName (path : String) : String :=
  if path = "" then "Root"
  else
    match (splitOnSlash path).filter (fun s => decide (s ≠ "")) with
    | [] => "Root"
    | s :: rest => List.getLast (s :: rest) (List.cons_ne_nil s rest)

/-- `current = current ? current + "/" + segment : segment`. -/
def extendPath (cur seg : String) : String :=
  if cur = "" then seg else cur ++ "/" ++ seg

/-- The loop of `buildStorageTree` pushing each accumulated ancestor path,
skipping empty segments. -/
def chainOfSegs (cur : String) : List String → List String
  | [] => []
  | seg :: rest =>
    if seg = "" then chainOfSegs cur rest
    else extendPath cur seg :: chainOfSegs (extendPath cur seg) rest

/-- The ancestor list of one file: `[""]` followed by every accumulated
prefix of the normalized path (the guard on `normalized.length` mirrors the
source). -/
def ancestorChain (normalized : String) : List String :=
  "" :: (if normalized = "" then [] else chainOfSegs "" (splitOnSlash normalized))

/-- Consecutive pairs `ancestors[i], ancestors[i+1]` of the source's edge
loop. -/
def consecPairs {α : Type} : List α → List (α × α)
  | a :: b :: rest => (a, b) :: consecPairs (b :: rest)
  | _ => []

/-- Association-list lookup, mirroring `Map.prototype.get`. -/
def alGet {β : Type} : List (String × β) → String → Option β
  | [], _ => none
  | (k', v) :: rest, k => if k' = k then some v else alGet rest k

/-- Association-list update, mirroring `Map.prototype.set`: an existing key
keeps its position, a new key is appended. -/
def alSet {β : Type} : List (String × β) → String → β → List (String × β)
  | [], k, v => [(k, v)]
  | (k', v') :: rest, k, v =>
    if k' = k then (k, v) :: rest else (k', v') :: alSet rest k v

/-- The statistics map of `buildStorageTree`. -/
abbrev StatsMap := List (String × EntryStats)

/-- The parent-to-children map of `buildStorageTree`. -/
abbrev ChildMap := List (String × List String)

/-- The per-ancestor statistics update of `buildStorageTree`. -/
def bumpStats (existing : Option EntryStats) (f : StorageUsageFile) : EntryStats :=
  { size := (match existing with | some st => st.size | none => 0) + f.size
    itemCount := (match existing with | some st => st.itemCount | none => 0) + 1
    lastChanged :=
      latestTimestamp (match existing with | some st => st.lastChanged | none => none)
        f.last_changed }

/-- Fold the statistics update over the ancestor list of one file. -/
def statsAddFile (stats : StatsMap) (f : StorageUsageFile) (ancestors : List String) :
    StatsMap :=
  ancestors.foldl (fun st p => alSet st p (bumpStats (alGet st p) f)) stats

/-- `const set = children.get(parent) ?? new Set(); set.add(child);
children.set(parent, set)`. -/
def addChildEdge (m : ChildMap) (p c : String) : ChildMap :=
  let cur := match alGet m p with | some l => l | none => []
  alSet m p (if c ∈ cur then cur else cur ++ [c])

/-- Record every consecutive-pair edge of one file's ancestor list. -/
def childrenAddFile (m : ChildMap) (ancestors : List String) : ChildMap :=
  (consecPairs ancestors).foldl (fun ch pr => addChildEdge ch pr.1 pr.2) m

/-- The body of `buildStorageTree`'s `for (const file of files)` loop. -/
def treeStep (acc : StatsMap × ChildMap) (f : StorageUsageFile) : StatsMap × ChildMap :=
  let ancestors := ancestorChain (normalizePath f.path)
  (statsAddFile acc.1 f ancestors, childrenAddFile acc.2 ancestors)

/-- Both maps built by the first phase of `buildStorageTree`. -/
def buildMaps (files : List StorageUsageFile) : StatsMap × ChildMap :=
  files.foldl treeStep ([], [])

/-- `stats.get(p)?.size ?? 0`. -/
def sizeLookup (stats : StatsMap) (p : String) : Int :=
  match alGet stats p with | some st => st.size | none => 0

/-- Insert an element into a sorted accumulator, after every element the
comparator does not place strictly later: the insertion step of a stable
sort. -/
def insertLe {α : Type} (le : α → α → Bool) (a : α) : List α → List α
  | [] => [a]
  | b :: rest => if le b a then b :: insertLe le a rest else a :: b :: rest

/-- Stable sort (the guarantee of `Array.prototype.sort` with a consistent
comparator), as a left-to-right insertion sort. -/
def sortByLe {α : Type} (le : α → α → Bool) (l : List α) : List α :=
  l.foldl (fun acc a => insertLe le a acc) []

/-- The child comparator `(a, b) => bSize - aSize` of `buildStorageEntriesFor`
as the relation it sorts by. -/
def childLe (stats : StatsMap) (a b : String) : Bool :=
  decide (sizeLookup stats b ≤ sizeLookup stats a)

/-- `buildStorageEntriesFor` of the source, with a fuel argument standing in
for the unbounded recursion of JavaScript (see the header note). -/
def buildStorageEntriesFor : Nat → String → StatsMap → ChildMap → Int → List StorageEntry
  | 0, _, _, _, _ => []
  | Nat.succ fuel, parent, stats, children, totalSize =>
    match alGet children parent with
    | none => []
    | some childPaths =>
      (sortByLe (childLe stats) childPaths).filterMap (fun childPath =>
        match alGet stats childPath with
        | none => none
        | some data =>
          some { path := childPath
                 name := displayName childPath
                 size := data.size
                 itemCount := data.itemCount
                 lastChanged := data.lastChanged
                 percent :=
                   if totalSize = 0 then 0 else (data.size : ℚ) / (totalSize : ℚ) * 100
                 children := buildStorageEntriesFor fuel childPath stats children data.size })

/-- `buildStorageTree` of the source: accumulate both maps, read the root
statistics (`rootStats?.size ?? 0`), emit the root's children. -/
def buildStorageTree (files : List StorageUsageFile) : List StorageEntry × Int :=
  let maps := buildMaps files
  let totalSize := sizeLookup maps.1 ""
  (buildStorageEntriesFor (maps.1.length + 1) "" maps.1 maps.2 totalSize, totalSize)

/-- `file.node_id.join(",")`, the grouping key of `buildStorageNodes`. -/
def groupKey (f : StorageUsageFile) : String :=
  match f.node_id.map (fun n => toString n) with
  | [] => ""
  | s :: rest => rest.foldl (fun a b => a ++ "," ++ b) s

/-- One value of the `grouped` map of `buildStorageNodes`. -/
structure NodeGroup where
  name : String
  id : List Nat
  records : List StorageUsageFile

/-- JavaScript `v || fallback` on an optional string (empty counts as
falsy). -/
def jsStringOr (v : Option String) (fallback : String) : String :=
  match v with
  | some s => if s = "" then fallback else s
  | none => fallback

/-- The body of the grouping loop of `buildStorageNodes`. -/
def groupStep (m : List (String × NodeGroup)) (f : StorageUsageFile) :
    List (String × NodeGroup) :=
  match alGet m (groupKey f) with
  | some g => alSet m (groupKey f) { g with records := g.records ++ [f] }
  | none =>
    m ++ [(groupKey f,
      { name := jsStringOr f.node_name (formatNodeId f.node_id)
        id := f.node_id
        records := [f] })]

/-- The `grouped` map of `buildStorageNodes`, in insertion order. -/
def groupFiles (files : List StorageUsageFile) : List (String × NodeGroup) :=
  files.foldl groupStep []

/-- The node assembled from one group inside `grouped.forEach`. -/
def mkStorageNode (g : NodeGroup) : StorageNode :=
  let t := buildStorageTree g.records
  { name := if g.name = "" then formatNodeId g.id else g.name
    id := formatNodeId g.id
    totalSize := t.2
    entries := t.1 }

/-- The node comparator `(a, b) => a.name.localeCompare(b.name)` as the
relation it sorts by, for an abstract locale comparator `lc`. -/
def nodeLe (lc : String → String → Int) (a b : StorageNode) : Bool :=
  decide (lc a.name b.name ≤ 0)

/-- `buildStorageNodes` of the source, parameterized by the locale-aware
comparator `localeCompare` (host-defined in JavaScript). -/
def buildStorageNodes (lc : String → String → Int) (files : List StorageUsageFile) :
    List StorageNode :=
  if files.isEmpty then []
  else sortByLe (nodeLe lc) ((groupFiles files).map (fun kv => mkStorageNode kv.2))

/-! ## Specification-side definitions -/

/-- Total size of a list of file records. -/
def sumSizes (files : List StorageUsageFile) : Int :=
  (files.map (fun f => f.size)).sum

/-- The ancestor list the engine computes for one file. -/
def fileChain (f : StorageUsageFile) : List String :=
  ancestorChain (normalizePath f.path)

/-- Does a file contribute to the statistics at path `p`? -/
def contributesTo (p : String) (f : StorageUsageFile) : Bool :=
  decide (p ∈ fileChain f)

/-- The files of a list contributing at path `p`, in input order. -/
def contributorsOf (p : String) (files : List StorageUsageFile) :
    List StorageUsageFile :=
  files.filter (contributesTo p)

/-- The nonempty slash-separated segments of a string. -/
def canonSegs (s : String) : List String :=
  (splitOnSlash s).filter (fun t => decide (t ≠ ""))

/-- Join segments with `"/"`. -/
def joinSegs : List String → String
  | [] => ""
  | [a] => a
  | a :: b :: rest => a ++ "/" ++ joinSegs (b :: rest)

/-- The canonical path of a file: its normalized path with empty segments
dropped. -/
def canonOfFile (f : StorageUsageFile) : String :=
  joinSegs (canonSegs (normalizePath f.path))

/-- Is `s` nested strictly under `p`, i.e. does `p ++ "/"` start `s`? -/
def nestedUnderB (p s : String) : Bool :=
  List.isPrefixOf (p ++ "/").data s.data

/-- The matching relation of the claim as written: the file's normalized path
equals the entry path or is nested strictly under it. -/
def specMatchOrig (p : String) (f : StorageUsageFile) : Bool :=
  (normalizePath f.path == p) || nestedUnderB p (normalizePath f.path)

/-- The corrected matching relation: the file's canonical path equals the
entry path or is nested strictly under it. -/
def specMatchCanon (p : String) (f : StorageUsageFile) : Bool :=
  (canonOfFile f == p) || nestedUnderB p (canonOfFile f)

/-- The records of the input belonging to one grouping key, in input order. -/
def nodeRecords (files : List StorageUsageFile) (key : String) :
    List StorageUsageFile :=
  files.filter (fun f => decide (groupKey f = key))

/-- Membership of an entry anywhere in a forest of entries. -/
inductive InForest : StorageEntry → List StorageEntry → Prop
  | here {e : StorageEntry} {l : List StorageEntry} : e ∈ l → InForest e l
  | deeper {e p : StorageEntry} {l : List StorageEntry} :
      p ∈ l → InForest e p.children → InForest e l

/-- Maximum of a list of strings under plain string order, `none` when
empty. -/
def strMaxList : List String → Option String
  | [] => none
  | t :: rest => some (rest.foldl (fun a b => max a b) t)

/-- Fold of `latestTimestamp` over files, the accumulation the engine
performs. -/
def tsFold (start : Option String) (files : List StorageUsageFile) : Option String :=
  files.foldl (fun a f => latestTimestamp a f.last_changed) start

/-- The non-empty timestamps carried by a list of files, in order. -/
def neTimestamps (files : List StorageUsageFile) : List String :=
  (files.filterMap (fun f => f.last_changed)).filter (fun t => decide (t ≠ ""))

/-- The `last_changed` field of the last file of a list, `none` for the
empty list. -/
def lastTimestampField (files : List StorageUsageFile) : Option String :=
  match files.getLast? with
  | none => none
  | some f => f.last_changed

/-- Specification-side value of the timestamp accumulation: the plain
string-order maximum of the non-empty timestamps when at least one file
carries a non-empty timestamp, otherwise the last file's `last_changed`
verbatim (possibly the empty string, possibly unset), because the source's
falsiness guard lets every candidate replace an accumulator that is missing
or empty. -/
def tsSpec (files : List StorageUsageFile) : Option String :=
  if neTimestamps files = [] then lastTimestampField files
  else strMaxList (neTimestamps files)

/-- Iterate `bumpStats` over a list of files. -/
def bumpList (start : Option EntryStats) (files : List StorageUsageFile) :
    Option EntryStats :=
  files.foldl (fun acc f => some (bumpStats acc f)) start

/-- Every nonempty prefix of `segs`, each appended to `acc`. -/
def segPrefixes (acc : List String) : List String → List (List String)
  | [] => []
  | s :: rest => (acc ++ [s]) :: segPrefixes (acc ++ [s]) rest

/-- The children recorded for parent `p` by one file's edge loop. -/
def pairsFor (p : String) (f : StorageUsageFile) : List String :=
  (consecPairs (fileChain f)).filterMap
    (fun pr => if pr.1 = p then some pr.2 else none)

/-- Append elements not yet present, keeping first-occurrence order. -/
def addAll (cur : List String) (l : List String) : List String :=
  l.foldl (fun acc c => if c ∈ acc then acc else acc ++ [c]) cur

/-- The children of parent `p` in discovery order: first occurrences over the
files in input order, walking each file's edge pairs in chain order. -/
def discoveredChildren (files : List StorageUsageFile) (p : String) : List String :=
  addAll [] (files.flatMap (pairsFor p))

/-- The statistics map built from a file list. -/
def buildStats (files : List StorageUsageFile) : StatsMap := (buildMaps files).1

/-- The child map built from a file list. -/
def buildChildren (files : List StorageUsageFile) : ChildMap := (buildMaps files).2

/-- The stored child list for a parent path. -/
def childListOf (m : ChildMap) (p : String) : List String :=
  match alGet m p with | some l => l | none => []

/-- A nonempty string containing no slash: a well-formed path segment. -/
def ValidSeg (s : String) : Prop := s ≠ "" ∧ ('/' : Char) ∉ s.data

/-- All members are well-formed segments. -/
def ValidSegs (l : List String) : Prop := ∀ s ∈ l, ValidSeg s

/-- Sum of the sizes of the top-level entries. -/
def sumEntrySizes (entries : List StorageEntry) : Int :=
  (entries.map (fun e => e.size)).sum

/-- Sortedness of a list under a boolean relation. -/
abbrev SortedLe {α : Type} (le : α → α → Bool) (l : List α) : Prop :=
  l.Pairwise (fun a b => le a b = true)

/-- Running the engine twice on the same input (the idempotence scenario of
the spec). -/
def runEngineTwice (lc : String → String → Int) (files : List StorageUsageFile) :
    List StorageNode × List StorageNode :=
  (buildStorageNodes lc files, buildStorageNodes lc files)

/-! ## Concrete inputs for witnesses and counterexamples -/

/-- A concrete locale comparator: plain code-point string comparison. -/
def lcStd : String → String → Int :=
  fun a b => if a < b then -1 else if b < a then 1 else 0

/-- Shorthand for building one record. -/
def mkFileRec (p : String) (sz : Int) : StorageUsageFile :=
  { node_id := [0], node_name := none, path := p, size := sz, last_changed := none }

/-- One file whose raw path contains a doubled slash. -/
def demoDoubleSlash : List StorageUsageFile := [mkFileRec ("a//b") 7]

/-- A record with an empty name followed by one carrying a name. -/
def demoLateName : List StorageUsageFile :=
  [{ node_id := [1], node_name := some "", path := ("x"), size := 1, last_changed := none },
   { node_id := [1], node_name := some ("Alpha"), path := ("y"), size := 2, last_changed := none }]

/-- The merge scenario of the spec: two files with the same path. -/
def demoMerge : List StorageUsageFile :=
  [mkFileRec ("x.txt") 10, mkFileRec ("x.txt") 15]

/-- A directory with a direct file plus one nested file: the sole child of
`"a"` does not reach 100 percent. -/
def demoOnlyChild : List StorageUsageFile :=
  [mkFileRec ("a") 10, mkFileRec ("a/b") 5]

/-- Two records at the same path: the first carries the empty-string
timestamp, the second carries none. -/
def demoEmptyTs : List StorageUsageFile :=
  [{ node_id := [0], node_name := none, path := ("x"), size := 3,
     last_changed := some "" },
   { node_id := [0], node_name := none, path := ("x"), size := 4,
     last_changed := none }]

/-- A zero-size record normalizing to the empty path next to a real file. -/
def demoEmptyPath : List StorageUsageFile :=
  [mkFileRec ("/") 0, mkFileRec ("a") 5]

/-- The concrete scenario of §8 of the spec. -/
def demoScenario : List StorageUsageFile :=
  [mkFileRec ("a/b.txt") 100, mkFileRec ("a/c.txt") 300, mkFileRec ("d.txt") 50]

/-- The group freshly created for a key, given the matching records in input
order: named and identified from the first of them. -/
def mkFreshGroup (fs : List StorageUsageFile) : Option NodeGroup :=
  match fs with
  | [] => none
  | f0 :: _ =>
    some { name := jsStringOr f0.node_name (formatNodeId f0.node_id)
           id := f0.node_id
           records := fs }

/-- The first nonempty `node_name` among a list of records, if any: what the
claim says a node should be named by. -/
def firstNonemptyName (recs : List StorageUsageFile) : Option String :=
  (recs.filterMap (fun f => match f.node_name with
    | some s => if s = "" then none else some s
    | none => none)).head?

/-- The aggregated size of a path over a record list, stated through the
corrected matching relation. -/
def aggSizeOf (recs : List StorageUsageFile) (p : String) : Int :=
  sumSizes (recs.filter (fun f => specMatchCanon p f))

/-! Expected outputs of the engine on the concrete inputs.  The `percent`
fields are written as the exact rational expressions the engine forms. -/

/-- Entry `"a/b"` produced for `demoDoubleSlash`. -/
def cexC1EntryAB : StorageEntry :=
  { path := "a/b", name := "b", size := 7, itemCount := 1, lastChanged := none,
    percent := ((7 : Int) : ℚ) / ((7 : Int) : ℚ) * 100, children := [] }

/-- Entry `"a"` produced for `demoDoubleSlash`. -/
def cexC1EntryA : StorageEntry :=
  { path := "a", name := "a", size := 7, itemCount := 1, lastChanged := none,
    percent := ((7 : Int) : ℚ) / ((7 : Int) : ℚ) * 100, children := [cexC1EntryAB] }

/-- The node produced for `demoDoubleSlash`. -/
def cexC1Node : StorageNode :=
  { name := "00", id := "00", totalSize := 7, entries := [cexC1EntryA] }

/-- Entry `"y"` produced for `demoLateName`. -/
def c5EntryY : StorageEntry :=
  { path := "y", name := "y", size := 2, itemCount := 1, lastChanged := none,
    percent := ((2 : Int) : ℚ) / ((3 : Int) : ℚ) * 100, children := [] }

/-- Entry `"x"` produced for `demoLateName`. -/
def c5EntryX : StorageEntry :=
  { path := "x", name := "x", size := 1, itemCount := 1, lastChanged := none,
    percent := ((1 : Int) : ℚ) / ((3 : Int) : ℚ) * 100, children := [] }

/-- The node produced for `demoLateName`. -/
def c5Node : StorageNode :=
  { name := "01", id := "01", totalSize := 3, entries := [c5EntryY, c5EntryX] }

/-- Entry `"x"` produced for `demoEmptyTs`: the stored empty-string
timestamp was displaced by the second record's missing one. -/
def c6Entry : StorageEntry :=
  { path := "x", name := "x", size := 7, itemCount := 2, lastChanged := none,
    percent := ((7 : Int) : ℚ) / ((7 : Int) : ℚ) * 100, children := [] }

/-- The node produced for `demoEmptyTs`. -/
def c6Node : StorageNode :=
  { name := "00", id := "00", totalSize := 7, entries := [c6Entry] }

/-- Entry `"a/b"` produced for `demoOnlyChild`: its parent's only child, at
one third. -/
def c2EntryAB : StorageEntry :=
  { path := "a/b", name := "b", size := 5, itemCount := 1, lastChanged := none,
    percent := ((5 : Int) : ℚ) / ((15 : Int) : ℚ) * 100, children := [] }

/-- Entry `"a"` produced for `demoOnlyChild`. -/
def c2EntryA : StorageEntry :=
  { path := "a", name := "a", size := 15, itemCount := 2, lastChanged := none,
    percent := ((15 : Int) : ℚ) / ((15 : Int) : ℚ) * 100, children := [c2EntryAB] }

/-- The node produced for `demoOnlyChild`. -/
def c2Node : StorageNode :=
  { name := "00", id := "00", totalSize := 15, entries := [c2EntryA] }

/-- The single merged entry produced for `demoMerge`. -/
def c7Entry : StorageEntry :=
  { path := "x.txt", name := "x.txt", size := 25, itemCount := 2, lastChanged := none,
    percent := ((25 : Int) : ℚ) / ((25 : Int) : ℚ) * 100, children := [] }

/-- The node produced for `demoMerge`. -/
def c7Node : StorageNode :=
  { name := "00", id := "00", totalSize := 25, entries := [c7Entry] }

/-- The single entry produced for `demoEmptyPath`. -/
def c10Entry : StorageEntry :=
  { path := "a", name := "a", size := 5, itemCount := 1, lastChanged := none,
    percent := ((5 : Int) : ℚ) / ((5 : Int) : ℚ) * 100, children := [] }

/-- The node produced for `demoEmptyPath`: total size 5, one entry also of
size 5. -/
def c10Node : StorageNode :=
  { name := "00", id := "00", totalSize := 5, entries := [c10Entry] }

-- ===================== THEOREMS =====================

/-! ### Association-list lemmas -/

theorem alGet_alSet {β : Type} (m : List (String × β)) (k k' : String) (v : β) :
    alGet (alSet m k v) k' = if k = k' then some v else alGet m k' := by
  induction m with
  | nil =>
    by_cases h : k = k' <;> simp [alSet, alGet, h]
  | cons kv rest ih =>
    obtain ⟨k0, v0⟩ := kv
    by_cases h0 : k0 = k
    · subst h0
      by_cases h : k0 = k' <;> simp [alSet, alGet, h]
    · by_cases h : k0 = k'
      · subst h
        have hkk : ¬ k = k0 := fun he => h0 he.symm
        simp [alSet, alGet, h0, hkk]
      · simp [alSet, alGet, h0, h, ih]

theorem alGet_append {β : Type} (m m' : List (String × β)) (k : String) :
    alGet (m ++ m') k =
      match alGet m k with
      | some v => some v
      | none => alGet m' k := by
  induction m with
  | nil => simp [alGet]
  | cons kv rest ih =>
    obtain ⟨k0, v0⟩ := kv
    by_cases h : k0 = k <;> simp [alGet, h, ih]

/-! ### Stable sort lemmas -/

theorem insertLe_perm {α : Type} (le : α → α → Bool) (a : α) (l : List α) :
    (insertLe le a l).Perm (a :: l) := by
  induction l with
  | nil => simp [insertLe]
  | cons b rest ih =>
    by_cases h : le b a
    · simpa [insertLe, h] using (ih.cons b).trans (List.Perm.swap a b rest)
    · simp [insertLe, h]

theorem mem_insertLe {α : Type} (le : α → α → Bool) (a x : α) (l : List α) :
    x ∈ insertLe le a l ↔ x = a ∨ x ∈ l := by
  rw [(insertLe_perm le a l).mem_iff]
  simp

theorem sortByLe_perm_aux {α : Type} (le : α → α → Bool) (l acc : List α) :
    (l.foldl (fun acc a => insertLe le a acc) acc).Perm (acc ++ l) := by
  induction l generalizing acc with
  | nil => simp
  | cons a rest ih =>
    have h1 := ih (insertLe le a acc)
    have h2 : (insertLe le a acc ++ rest).Perm (acc ++ a :: rest) :=
      ((insertLe_perm le a acc).append_right rest).trans List.perm_middle.symm
    simpa [List.foldl_cons] using h1.trans h2

theorem sortByLe_perm {α : Type} (le : α → α → Bool) (l : List α) :
    (sortByLe le l).Perm l := by
  simpa [sortByLe] using sortByLe_perm_aux le l []

theorem mem_sortByLe {α : Type} (le : α → α → Bool) (x : α) (l : List α) :
    x ∈ sortByLe le l ↔ x ∈ l :=
  (sortByLe_perm le l).mem_iff

theorem insertLe_sorted {α : Type} (le : α → α → Bool)
    (htrans : ∀ a b c, le a b = true → le b c = true → le a c = true)
    (htot : ∀ a b, le a b = true ∨ le b a = true)
    (a : α) (l : List α) (hs : SortedLe le l) : SortedLe le (insertLe le a l) := by
  induction l with
  | nil => simp [insertLe, SortedLe]
  | cons b rest ih =>
    simp only [SortedLe, List.pairwise_cons] at hs
    by_cases h : le b a
    · rw [insertLe, if_pos h]
      simp only [SortedLe, List.pairwise_cons]
      constructor
      · intro x hx
        rcases (mem_insertLe le a x rest).mp hx with rfl | hx
        · exact h
        · exact hs.1 x hx
      · exact ih hs.2
    · rw [insertLe, if_neg h]
      have hab : le a b = true := by
        rcases htot a b with h1 | h1
        · exact h1
        · exact absurd h1 h
      simp only [SortedLe, List.pairwise_cons]
      constructor
      · intro x hx
        rcases List.mem_cons.mp hx with rfl | hx
        · exact hab
        · exact htrans a b x hab (hs.1 x hx)
      · exact hs

theorem sortByLe_sorted_aux {α : Type} (le : α → α → Bool)
    (htrans : ∀ a b c, le a b = true → le b c = true → le a c = true)
    (htot : ∀ a b, le a b = true ∨ le b a = true)
    (l acc : List α) (hacc : SortedLe le acc) :
    SortedLe le (l.foldl (fun acc a => insertLe le a acc) acc) := by
  induction l generalizing acc with
  | nil => exact hacc
  | cons a rest ih =>
    exact ih (insertLe le a acc) (insertLe_sorted le htrans htot a acc hacc)

theorem sortByLe_sorted {α : Type} (le : α → α → Bool)
    (htrans : ∀ a b c, le a b = true → le b c = true → le a c = true)
    (htot : ∀ a b, le a b = true ∨ le b a = true)
    (l : List α) : SortedLe le (sortByLe le l) :=
  sortByLe_sorted_aux le htrans htot l [] List.Pairwise.nil

theorem keyle_trans {α : Type} (key : α → Int) :
    ∀ a b c : α, decide (key b ≤ key a) = true → decide (key c ≤ key b) = true →
      decide (key c ≤ key a) = true := by
  intro a b c h1 h2
  simp only [decide_eq_true_eq] at *
  exact h2.trans h1

theorem keyle_tot {α : Type} (key : α → Int) :
    ∀ a b : α, decide (key b ≤ key a) = true ∨ decide (key a ≤ key b) = true := by
  intro a b
  simp only [decide_eq_true_eq]
  exact (le_total (key b) (key a))

theorem insertLe_filter_key {α : Type} (key : α → Int) (s : Int) (a : α) (l : List α)
    (hs : SortedLe (fun x y => decide (key y ≤ key x)) l) :
    (insertLe (fun x y => decide (key y ≤ key x)) a l).filter
        (fun x => decide (key x = s)) =
      if key a = s then
        l.filter (fun x => decide (key x = s)) ++ [a]
      else l.filter (fun x => decide (key x = s)) := by
  induction l with
  | nil =>
    by_cases h : key a = s <;> simp [insertLe, List.filter, h]
  | cons b rest ih =>
    simp only [SortedLe, List.pairwise_cons] at hs
    by_cases hba : key a ≤ key b
    · rw [insertLe]
      rw [if_pos (by simpa using hba)]
      have ihr := ih hs.2
      by_cases hbs : key b = s <;> by_cases has : key a = s <;>
        simp [List.filter, hbs, has, ihr]
    · have hlt : key b < key a := lt_of_not_le hba
      rw [insertLe]
      rw [if_neg (by simpa using hba)]
      have hnone : ∀ x ∈ b :: rest, key x < key a := by
        intro x hx
        rcases List.mem_cons.mp hx with rfl | hx
        · exact hlt
        · have := hs.1 x hx
          simp only [decide_eq_true_eq] at this
          exact lt_of_le_of_lt this hlt
      by_cases has : key a = s
      · have hempty : (b :: rest).filter (fun x => decide (key x = s)) = [] := by
          refine List.filter_eq_nil_iff.mpr ?_
          intro x hx
          have := hnone x hx
          simp only [decide_eq_true_eq]
          omega
        rw [if_pos has, List.filter_cons_of_pos (by simp [has]), hempty]
        simp
      · rw [if_neg has, List.filter_cons_of_neg (by simp [has])]

theorem sortBy_key_filter_aux {α : Type} (key : α → Int) (s : Int) (l acc : List α)
    (hacc : SortedLe (fun x y => decide (key y ≤ key x)) acc) :
    (l.foldl (fun acc a => insertLe (fun x y => decide (key y ≤ key x)) a acc) acc).filter
        (fun x => decide (key x = s)) =
      acc.filter (fun x => decide (key x = s)) ++ l.filter (fun x => decide (key x = s)) := by
  induction l generalizing acc with
  | nil => simp
  | cons a rest ih =>
    have hacc' := insertLe_sorted (fun x y => decide (key y ≤ key x))
      (keyle_trans key) (keyle_tot key) a acc hacc
    rw [List.foldl_cons, ih _ hacc', insertLe_filter_key key s a acc hacc]
    by_cases has : key a = s <;> simp [List.filter, has]

theorem sortBy_key_filter {α : Type} (key : α → Int) (s : Int) (l : List α) :
    (sortByLe (fun x y => decide (key y ≤ key x)) l).filter (fun x => decide (key x = s)) =
      l.filter (fun x => decide (key x = s)) := by
  simpa [sortByLe] using sortBy_key_filter_aux key s l [] List.Pairwise.nil

theorem sortByLe_nodup {α : Type} (le : α → α → Bool) (l : List α) (h : l.Nodup) :
    (sortByLe le l).Nodup :=
  (sortByLe_perm le l).nodup_iff.mpr h

theorem pairwise_filterMap_of {α β : Type} {R : α → α → Prop} {S : β → β → Prop}
    (f : α → Option β)
    (h : ∀ a b x y, R a b → f a = some x → f b = some y → S x y) :
    ∀ {l : List α}, l.Pairwise R → (l.filterMap f).Pairwise S := by
  intro l hl
  induction l with
  | nil => simp
  | cons a rest ih =>
    rw [List.pairwise_cons] at hl
    rcases hfa : f a with _ | x
    · rw [List.filterMap_cons_none hfa]
      exact ih hl.2
    · rw [List.filterMap_cons_some hfa]
      rw [List.pairwise_cons]
      constructor
      · intro y hy
        obtain ⟨b, hb, hfb⟩ := List.mem_filterMap.mp hy
        exact h a b x y (hl.1 b hb) hfa hfb
      · exact ih hl.2

/-! ### String and segment lemmas -/

theorem string_eq_iff_data {a b : String} : a = b ↔ a.data = b.data :=
  ⟨congrArg _, String.ext⟩

theorem splitSlash_no_slash (l : List Char) : ∀ t ∈ splitSlash l, ('/' : Char) ∉ t := by
  induction l with
  | nil =>
    intro t ht
    simp [splitSlash] at ht
    simp [ht]
  | cons c rest ih =>
    intro t ht
    by_cases h : isSlash c
    · rw [splitSlash, if_pos h] at ht
      rcases List.mem_cons.mp ht with rfl | ht
      · simp
      · exact ih t ht
    · have hc : c ≠ '/' := by simpa [isSlash] using h
      rw [splitSlash, if_neg h] at ht
      rcases hsp : splitSlash rest with _ | ⟨t0, ts⟩
      · rw [hsp] at ht
        simp at ht
        subst ht
        simpa using fun he => hc he.symm
      · rw [hsp] at ht
        rcases List.mem_cons.mp ht with rfl | ht
        · intro hmem
          rcases List.mem_cons.mp hmem with he | hmem
          · exact hc he.symm
          · exact ih t0 (hsp ▸ List.mem_cons_self t0 ts) hmem
        · exact ih t (hsp ▸ List.mem_cons_of_mem t0 ht)

theorem validSegs_canonSegs (s : String) : ValidSegs (canonSegs s) := by
  intro t ht
  rw [canonSegs] at ht
  have hmem := (List.mem_filter.mp ht).1
  have hne : t ≠ "" := by
    have := (List.mem_filter.mp ht).2
    simpa using this
  rw [splitOnSlash] at hmem
  obtain ⟨cs, hcs, rfl⟩ := List.mem_map.mp hmem
  exact ⟨hne, splitSlash_no_slash s.data cs hcs⟩

theorem joinSegs_ne_empty (l : List String) (hl : l ≠ []) (hv : ValidSegs l) :
    joinSegs l ≠ "" := by
  cases l with
  | nil => exact absurd rfl hl
  | cons a rest =>
    cases rest with
    | nil => exact (hv a (List.mem_cons_self a [])).1
    | cons b rest2 =>
      intro h
      rw [string_eq_iff_data] at h
      rw [joinSegs, String.data_append, String.data_append] at h
      simp at h

theorem joinSegs_append (l m : List String) (hl : l ≠ []) (hm : m ≠ []) :
    joinSegs (l ++ m) = joinSegs l ++ "/" ++ joinSegs m := by
  induction l with
  | nil => exact absurd rfl hl
  | cons a l2 ih =>
    cases l2 with
    | nil =>
      cases m with
      | nil => exact absurd rfl hm
      | cons b m2 => rfl
    | cons a2 l3 =>
      have step : joinSegs ((a :: a2 :: l3) ++ m) =
          a ++ "/" ++ joinSegs ((a2 :: l3) ++ m) := rfl
      rw [step, ih (List.cons_ne_nil a2 l3)]
      have step2 : joinSegs (a :: a2 :: l3) = a ++ "/" ++ joinSegs (a2 :: l3) := rfl
      rw [step2]
      simp [String.append_assoc]

theorem sep_inj_char : ∀ (u v x y : List Char), ('/' : Char) ∉ u → ('/' : Char) ∉ v →
    u ++ '/' :: x = v ++ '/' :: y → u = v ∧ x = y := by
  intro u
  induction u with
  | nil =>
    intro v x y _ hv h
    cases v with
    | nil =>
      simp at h
      exact ⟨rfl, h⟩
    | cons d v2 =>
      simp at h
      exact absurd (List.mem_cons.mpr (Or.inl h.1)) hv
  | cons c u2 ih =>
    intro v x y hu hv h
    cases v with
    | nil =>
      simp at h
      exact absurd (List.mem_cons.mpr (Or.inl h.1.symm)) hu
    | cons d v2 =>
      simp only [List.cons_append, List.cons.injEq] at h
      obtain ⟨rfl, h2⟩ := h
      obtain ⟨h3, h4⟩ := ih v2 x y (fun hm => hu (List.mem_cons_of_mem c hm))
        (fun hm => hv (List.mem_cons_of_mem c hm)) h2
      subst h3
      exact ⟨rfl, h4⟩

theorem sep_pre_char : ∀ (u v x y : List Char), ('/' : Char) ∉ u → ('/' : Char) ∉ v →
    (u ++ '/' :: x) <+: (v ++ '/' :: y) → u = v ∧ x <+: y := by
  intro u
  induction u with
  | nil =>
    intro v x y _ hv h
    cases v with
    | nil =>
      refine ⟨rfl, ?_⟩
      simp only [List.nil_append] at h
      exact (List.cons_prefix_cons.mp h).2
    | cons d v2 =>
      simp only [List.nil_append, List.cons_append] at h
      have h1 := (List.cons_prefix_cons.mp h).1
      exact absurd (List.mem_cons.mpr (Or.inl h1)) hv
  | cons c u2 ih =>
    intro v x y hu hv h
    cases v with
    | nil =>
      simp only [List.cons_append, List.nil_append] at h
      have h1 := (List.cons_prefix_cons.mp h).1
      exact absurd (List.mem_cons.mpr (Or.inl h1.symm)) hu
    | cons d v2 =>
      simp only [List.cons_append] at h
      obtain ⟨rfl, h2⟩ := List.cons_prefix_cons.mp h
      obtain ⟨h3, h4⟩ := ih v2 x y (fun hm => hu (List.mem_cons_of_mem c hm))
        (fun hm => hv (List.mem_cons_of_mem c hm)) h2
      subst h3
      exact ⟨rfl, h4⟩

theorem joinSegs_data_cons (a : String) (l : List String) (hl : l ≠ []) :
    (joinSegs (a :: l)).data = a.data ++ '/' :: (joinSegs l).data := by
  cases l with
  | nil => exact absurd rfl hl
  | cons b l2 =>
    rw [joinSegs, String.data_append, String.data_append]
    simp

theorem slash_data (a : String) : (a ++ "/").data = a.data ++ '/' :: [] := by
  rw [String.data_append]

theorem joinSegs_slash_data_cons (a : String) (l : List String) (hl : l ≠ []) :
    (joinSegs (a :: l) ++ "/").data = a.data ++ '/' :: (joinSegs l ++ "/").data := by
  rw [slash_data, joinSegs_data_cons a l hl, slash_data]
  simp

theorem joinSegs_inj : ∀ (l m : List String), ValidSegs l → ValidSegs m →
    joinSegs l = joinSegs m → l = m := by
  intro l
  induction l with
  | nil =>
    intro m _ hm h
    cases m with
    | nil => rfl
    | cons b m2 =>
      exact absurd h.symm (joinSegs_ne_empty (b :: m2) (List.cons_ne_nil b m2) hm)
  | cons a l2 ih =>
    intro m hl hm h
    cases m with
    | nil =>
      exact absurd h (joinSegs_ne_empty (a :: l2) (List.cons_ne_nil a l2) hl)
    | cons b m2 =>
      cases l2 with
      | nil =>
        cases m2 with
        | nil =>
          have hab : a = b := h
          rw [hab]
        | cons b2 m3 =>
          have hd := congrArg String.data h
          rw [joinSegs_data_cons b (b2 :: m3) (List.cons_ne_nil b2 m3)] at hd
          have : ('/' : Char) ∈ (joinSegs [a]).data := by
            rw [hd]
            exact List.mem_append_right _ (List.mem_cons_self _ _)
          rw [joinSegs] at this
          exact absurd this (hl a (List.mem_cons_self a [])).2
      | cons a2 l3 =>
        cases m2 with
        | nil =>
          have hd := congrArg String.data h
          rw [joinSegs_data_cons a (a2 :: l3) (List.cons_ne_nil a2 l3)] at hd
          have : ('/' : Char) ∈ (joinSegs [b]).data := by
            rw [← hd]
            exact List.mem_append_right _ (List.mem_cons_self _ _)
          rw [joinSegs] at this
          exact absurd this (hm b (List.mem_cons_self b _)).2
        | cons b2 m3 =>
          have hd := congrArg String.data h
          rw [joinSegs_data_cons a (a2 :: l3) (List.cons_ne_nil a2 l3),
            joinSegs_data_cons b (b2 :: m3) (List.cons_ne_nil b2 m3)] at hd
          obtain ⟨h1, h2⟩ := sep_inj_char a.data b.data _ _
            (hl a (List.mem_cons_self a _)).2 (hm b (List.mem_cons_self b _)).2 hd
          have hab : a = b := String.ext h1
          have htl : a2 :: l3 = b2 :: m3 :=
            ih (b2 :: m3) (fun s hs => hl s (List.mem_cons_of_mem a hs))
              (fun s hs => hm s (List.mem_cons_of_mem b hs)) (String.ext h2)
          rw [hab, htl]

theorem joinSegs_pre_mp : ∀ (l m : List String), ValidSegs l → ValidSegs m → l ≠ [] →
    (joinSegs l ++ "/").data <+: (joinSegs m).data → l <+: m ∧ l ≠ m := by
  intro l
  induction l with
  | nil => intro m _ _ hl; exact absurd rfl hl
  | cons a l2 ih =>
    intro m hl hm _ h
    cases m with
    | nil =>
      have hnil : (joinSegs []).data = [] := rfl
      rw [hnil, List.prefix_nil] at h
      have : ((joinSegs (a :: l2) ++ "/")).data ≠ [] := by
        rw [slash_data]
        simp
      exact absurd h this
    | cons b m2 =>
      cases m2 with
      | nil =>
        have hmem : ('/' : Char) ∈ (joinSegs [b]).data := by
          refine h.sublist.subset ?_
          rw [slash_data]
          exact List.mem_append_right _ (List.mem_cons_self _ _)
        rw [joinSegs] at hmem
        exact absurd hmem (hm b (List.mem_cons_self b _)).2
      | cons b2 m3 =>
        rw [joinSegs_data_cons b (b2 :: m3) (List.cons_ne_nil b2 m3)] at h
        cases l2 with
        | nil =>
          rw [joinSegs, slash_data] at h
          obtain ⟨h1, _⟩ := sep_pre_char a.data b.data _ _
            (hl a (List.mem_cons_self a _)).2 (hm b (List.mem_cons_self b _)).2 h
          have hab : a = b := String.ext h1
          subst hab
          constructor
          · exact List.cons_prefix_cons.mpr ⟨rfl, List.nil_prefix⟩
          · intro he
            have := congrArg List.length he
            simp at this
        | cons a2 l3 =>
          rw [joinSegs_slash_data_cons a (a2 :: l3) (List.cons_ne_nil a2 l3)] at h
          obtain ⟨h1, h2⟩ := sep_pre_char a.data b.data _ _
            (hl a (List.mem_cons_self a _)).2 (hm b (List.mem_cons_self b _)).2 h
          have hab : a = b := String.ext h1
          subst hab
          obtain ⟨h3, h4⟩ := ih (b2 :: m3)
            (fun s hs => hl s (List.mem_cons_of_mem a hs))
            (fun s hs => hm s (List.mem_cons_of_mem a hs))
            (List.cons_ne_nil a2 l3) h2
          constructor
          · exact List.cons_prefix_cons.mpr ⟨rfl, h3⟩
          · intro he
            exact h4 (List.cons.injEq _ _ _ _ ▸ congrArg List.tail he)

theorem joinSegs_pre_mpr (l m : List String) (hl : l ≠ []) (hpre : l <+: m)
    (hne : l ≠ m) : (joinSegs l ++ "/").data <+: (joinSegs m).data := by
  have hm : l ++ m.drop l.length = m := List.prefix_iff_eq_append.mp hpre
  have hd : m.drop l.length ≠ [] := by
    intro h0
    rw [h0, List.append_nil] at hm
    exact hne hm
  rw [← hm, joinSegs_append l (m.drop l.length) hl hd]
  rw [String.data_append (joinSegs l ++ "/") (joinSegs (m.drop l.length))]
  exact List.prefix_append _ _

theorem extendPath_joinSegs (acc : List String) (s : String) (hacc : ValidSegs acc) :
    extendPath (joinSegs acc) s = joinSegs (acc ++ [s]) := by
  cases acc with
  | nil => rfl
  | cons a acc2 =>
    have hne : joinSegs (a :: acc2) ≠ "" :=
      joinSegs_ne_empty (a :: acc2) (List.cons_ne_nil a acc2) hacc
    rw [extendPath, if_neg hne, joinSegs_append (a :: acc2) [s] (List.cons_ne_nil a acc2)
      (List.cons_ne_nil s [])]
    rfl

theorem chainOfSegs_filter (cur : String) (segs : List String) :
    chainOfSegs cur segs = chainOfSegs cur (segs.filter (fun t => decide (t ≠ ""))) := by
  induction segs generalizing cur with
  | nil => rfl
  | cons s rest ih =>
    by_cases h : s = ""
    · rw [chainOfSegs, if_pos h, List.filter_cons_of_neg (by simp [h]), ih]
    · rw [chainOfSegs, if_neg h, List.filter_cons_of_pos (by simp [h]), chainOfSegs,
        if_neg h, ih]

theorem chainOfSegs_eq (segs : List String) : ∀ acc : List String,
    ValidSegs (acc ++ segs) →
    chainOfSegs (joinSegs acc) segs = (segPrefixes acc segs).map joinSegs := by
  induction segs with
  | nil => intro acc _; rfl
  | cons s rest ih =>
    intro acc hv
    have hs : s ≠ "" := (hv s (by simp)).1
    rw [chainOfSegs, if_neg hs, extendPath_joinSegs acc s
      (fun t ht => hv t (List.mem_append_left _ ht)), segPrefixes, List.map_cons]
    have hv2 : ValidSegs ((acc ++ [s]) ++ rest) := by
      intro t ht
      refine hv t ?_
      rw [List.append_assoc] at ht
      simpa using ht
    rw [ih (acc ++ [s]) hv2]

theorem canonSegs_empty : canonSegs "" = [] := by rfl

theorem ancestorChain_eq (n : String) :
    ancestorChain n = ([] :: segPrefixes [] (canonSegs n)).map joinSegs := by
  rw [ancestorChain]
  by_cases h : n = ""
  · subst h
    rfl
  · rw [if_neg h, chainOfSegs_filter]
    have : chainOfSegs "" (canonSegs n) = (segPrefixes [] (canonSegs n)).map joinSegs := by
      have := chainOfSegs_eq (canonSegs n) [] (by simpa using validSegs_canonSegs n)
      simpa [joinSegs] using this
    rw [List.map_cons]
    rw [canonSegs] at this
    rw [this]
    rfl

theorem mem_segPrefixes : ∀ (segs acc l : List String),
    l ∈ segPrefixes acc segs ↔ ∃ t, t ≠ [] ∧ t <+: segs ∧ l = acc ++ t := by
  intro segs
  induction segs with
  | nil =>
    intro acc l
    simp only [segPrefixes, List.not_mem_nil, false_iff]
    rintro ⟨t, ht, hpre, _⟩
    rw [List.prefix_nil] at hpre
    exact ht hpre
  | cons s rest ih =>
    intro acc l
    rw [segPrefixes, List.mem_cons, ih (acc ++ [s]) l]
    constructor
    · rintro (rfl | ⟨t, ht, hpre, rfl⟩)
      · exact ⟨[s], List.cons_ne_nil s [], List.cons_prefix_cons.mpr ⟨rfl, List.nil_prefix⟩, rfl⟩
      · exact ⟨s :: t, List.cons_ne_nil s t, List.cons_prefix_cons.mpr ⟨rfl, hpre⟩,
          by rw [List.append_assoc]; rfl⟩
    · rintro ⟨t, ht, hpre, rfl⟩
      cases t with
      | nil => exact absurd rfl ht
      | cons t0 t2 =>
        obtain ⟨rfl, hpre2⟩ := List.cons_prefix_cons.mp hpre
        cases t2 with
        | nil => exact Or.inl rfl
        | cons t3 t4 =>
          refine Or.inr ⟨t3 :: t4, List.cons_ne_nil t3 t4, hpre2, ?_⟩
          rw [List.append_assoc]
          rfl

theorem validSegs_of_pre {l m : List String} (h : l <+: m) (hv : ValidSegs m) :
    ValidSegs l := fun s hs => hv s (h.sublist.subset hs)

theorem mem_ancestorChain_iff (l : List String) (n : String) (hv : ValidSegs l)
    (hl : l ≠ []) : joinSegs l ∈ ancestorChain n ↔ l <+: canonSegs n := by
  rw [ancestorChain_eq]
  constructor
  · intro h
    obtain ⟨t, ht, heq⟩ := List.mem_map.mp h
    rcases List.mem_cons.mp ht with rfl | ht
    · exact absurd heq.symm (joinSegs_ne_empty l hl hv)
    · obtain ⟨t2, ht2, hpre, heq2⟩ := (mem_segPrefixes (canonSegs n) [] t).mp ht
      rw [List.nil_append] at heq2
      rw [heq2] at heq
      have ht2l : t2 = l := joinSegs_inj t2 l
        (validSegs_of_pre hpre (validSegs_canonSegs n)) hv heq
      rw [← ht2l]
      exact hpre
  · intro h
    refine List.mem_map.mpr ⟨l, ?_, rfl⟩
    refine List.mem_cons.mpr (Or.inr ?_)
    exact (mem_segPrefixes (canonSegs n) [] l).mpr ⟨l, hl, h, rfl⟩

theorem consecPairs_map {α β : Type} (f : α → β) (l : List α) :
    consecPairs (l.map f) = (consecPairs l).map (fun p => (f p.1, f p.2)) := by
  induction l with
  | nil => rfl
  | cons a rest ih =>
    cases rest with
    | nil => rfl
    | cons b rest2 =>
      rw [List.map_cons, List.map_cons, consecPairs, consecPairs]
      rw [← List.map_cons f b rest2, ih]
      rfl

theorem consecPairs_segPrefixes : ∀ (segs acc : List String)
    (p : List String × List String), p ∈ consecPairs (acc :: segPrefixes acc segs) →
    ∃ t s, p.1 = acc ++ t ∧ p.2 = acc ++ t ++ [s] ∧ (t ++ [s]) <+: segs := by
  intro segs
  induction segs with
  | nil =>
    intro acc p hp
    simp [segPrefixes, consecPairs] at hp
  | cons s rest ih =>
    intro acc p hp
    rw [segPrefixes, consecPairs] at hp
    rcases List.mem_cons.mp hp with rfl | hp
    · exact ⟨[], s, by simp, by simp, List.cons_prefix_cons.mpr ⟨rfl, List.nil_prefix⟩⟩
    · obtain ⟨t, s2, h1, h2, h3⟩ := ih (acc ++ [s]) p hp
      refine ⟨s :: t, s2, ?_, ?_, List.cons_prefix_cons.mpr ⟨rfl, h3⟩⟩
      · rw [h1, List.append_assoc]; rfl
      · rw [h2, List.append_assoc, List.append_assoc]
        simp

theorem edge_shape (n : String) (a b : String)
    (hab : (a, b) ∈ consecPairs (ancestorChain n)) :
    ∃ t s, ValidSegs (t ++ [s]) ∧ (t ++ [s]) <+: canonSegs n ∧
      a = joinSegs t ∧ b = joinSegs (t ++ [s]) := by
  rw [ancestorChain_eq, consecPairs_map] at hab
  obtain ⟨q, hq, heq⟩ := List.mem_map.mp hab
  obtain ⟨t, s, h1, h2, h3⟩ := consecPairs_segPrefixes (canonSegs n) [] q hq
  simp only [List.nil_append] at h1 h2
  refine ⟨t, s, validSegs_of_pre h3 (validSegs_canonSegs n), h3, ?_, ?_⟩
  · rw [← h1]
    exact (congrArg Prod.fst heq).symm
  · rw [← h2]
    exact (congrArg Prod.snd heq).symm

theorem validSegs_canonOfFile (f : StorageUsageFile) :
    ValidSegs (canonSegs (normalizePath f.path)) :=
  validSegs_canonSegs (normalizePath f.path)

theorem specMatchCanon_iff_mem_chain (l : List String) (f : StorageUsageFile)
    (hv : ValidSegs l) (hl : l ≠ []) :
    specMatchCanon (joinSegs l) f = true ↔ joinSegs l ∈ fileChain f := by
  have hm := validSegs_canonOfFile f
  rw [fileChain, mem_ancestorChain_iff l (normalizePath f.path) hv hl]
  rw [specMatchCanon, Bool.or_eq_true, beq_iff_eq, canonOfFile]
  constructor
  · rintro (h | h)
    · have : canonSegs (normalizePath f.path) = l :=
        joinSegs_inj _ _ hm hv h
      rw [this]
    · rw [nestedUnderB] at h
      rw [List.isPrefixOf_iff_prefix] at h
      exact (joinSegs_pre_mp l _ hv hm hl h).1
  · intro h
    by_cases he : l = canonSegs (normalizePath f.path)
    · exact Or.inl (by rw [he])
    · refine Or.inr ?_
      rw [nestedUnderB, List.isPrefixOf_iff_prefix]
      exact joinSegs_pre_mpr l _ hl h he

theorem segPrefixes_longer : ∀ (segs acc : List String), ∀ x ∈ segPrefixes acc segs,
    acc.length < x.length := by
  intro segs
  induction segs with
  | nil => intro acc x hx; simp [segPrefixes] at hx
  | cons s rest ih =>
    intro acc x hx
    rcases List.mem_cons.mp hx with rfl | hx
    · simp
    · have := ih (acc ++ [s]) x hx
      simp at this
      omega

theorem segPrefixes_nodup : ∀ (segs acc : List String), (segPrefixes acc segs).Nodup := by
  intro segs
  induction segs with
  | nil => intro acc; simp [segPrefixes]
  | cons s rest ih =>
    intro acc
    rw [segPrefixes, List.nodup_cons]
    constructor
    · intro hmem
      have := segPrefixes_longer rest (acc ++ [s]) _ hmem
      omega
    · exact ih (acc ++ [s])

theorem validSegs_of_mem_prefixes (n : String) (t : List String)
    (ht : t ∈ [] :: segPrefixes [] (canonSegs n)) : ValidSegs t := by
  rcases List.mem_cons.mp ht with rfl | ht
  · intro s hs
    simp at hs
  · obtain ⟨t2, _, hpre, heq⟩ := (mem_segPrefixes (canonSegs n) [] t).mp ht
    rw [List.nil_append] at heq
    subst heq
    exact validSegs_of_pre hpre (validSegs_canonSegs n)

theorem ancestorChain_nodup (n : String) : (ancestorChain n).Nodup := by
  rw [ancestorChain_eq]
  refine List.Nodup.map_on ?_ ?_
  · intro x hx y hy hxy
    exact joinSegs_inj x y (validSegs_of_mem_prefixes n x hx)
      (validSegs_of_mem_prefixes n y hy) hxy
  · rw [List.nodup_cons]
    constructor
    · intro hmem
      have := segPrefixes_longer (canonSegs n) [] _ hmem
      simp at this
    · exact segPrefixes_nodup (canonSegs n) []

theorem root_mem_fileChain (f : StorageUsageFile) : "" ∈ fileChain f :=
  List.mem_cons_self _ _

/-! ### Statistics map characterization -/

theorem alGet_statsAddFile (f : StorageUsageFile) (ancestors : List String)
    (hnd : ancestors.Nodup) (stats : StatsMap) (p : String) :
    alGet (statsAddFile stats f ancestors) p =
      if p ∈ ancestors then some (bumpStats (alGet stats p) f) else alGet stats p := by
  induction ancestors generalizing stats with
  | nil => simp [statsAddFile]
  | cons a rest ih =>
    rw [List.nodup_cons] at hnd
    rw [statsAddFile, List.foldl_cons]
    have step : rest.foldl (fun st p => alSet st p (bumpStats (alGet st p) f))
        (alSet stats a (bumpStats (alGet stats a) f)) =
        statsAddFile (alSet stats a (bumpStats (alGet stats a) f)) f rest := rfl
    rw [step, ih hnd.2]
    by_cases hp : p ∈ rest
    · have hpa : ¬ a = p := fun he => hnd.1 (he ▸ hp)
      rw [if_pos hp, if_pos (List.mem_cons.mpr (Or.inr hp)), alGet_alSet, if_neg hpa]
    · by_cases hpa : p = a
      · subst hpa
        rw [if_neg hp, if_pos (List.mem_cons_self p rest), alGet_alSet, if_pos rfl]
      · rw [if_neg hp, if_neg (by simp [hpa, hp]), alGet_alSet,
          if_neg (fun he => hpa he.symm)]

theorem foldl_treeStep_split (files : List StorageUsageFile) (s : StatsMap)
    (c : ChildMap) :
    files.foldl treeStep (s, c) =
      (files.foldl (fun st f => statsAddFile st f (fileChain f)) s,
       files.foldl (fun ch f => childrenAddFile ch (fileChain f)) c) := by
  induction files generalizing s c with
  | nil => rfl
  | cons f fs ih =>
    rw [List.foldl_cons, List.foldl_cons, List.foldl_cons]
    exact ih (statsAddFile s f (fileChain f)) (childrenAddFile c (fileChain f))

theorem alGet_statsFold (files : List StorageUsageFile) (stats : StatsMap) (p : String) :
    alGet (files.foldl (fun st f => statsAddFile st f (fileChain f)) stats) p =
      bumpList (alGet stats p) (files.filter (contributesTo p)) := by
  induction files generalizing stats with
  | nil => rfl
  | cons f fs ih =>
    rw [List.foldl_cons, ih]
    rw [alGet_statsAddFile f (fileChain f) (ancestorChain_nodup (normalizePath f.path))]
    by_cases hp : p ∈ fileChain f
    · rw [if_pos hp, List.filter_cons_of_pos (by simp [contributesTo, hp])]
      rfl
    · rw [if_neg hp, List.filter_cons_of_neg (by simp [contributesTo, hp])]

theorem bumpList_some (st : EntryStats) (files : List StorageUsageFile) :
    bumpList (some st) files = some
      { size := st.size + sumSizes files
        itemCount := st.itemCount + files.length
        lastChanged := tsFold st.lastChanged files } := by
  induction files generalizing st with
  | nil =>
    cases st
    simp [bumpList, sumSizes, tsFold]
  | cons f fs ih =>
    have step : bumpList (some st) (f :: fs) = bumpList (some (bumpStats (some st) f)) fs :=
      rfl
    rw [step, ih]
    have harr : bumpStats (some st) f =
        { size := st.size + f.size
          itemCount := st.itemCount + 1
          lastChanged := latestTimestamp st.lastChanged f.last_changed } := rfl
    rw [harr]
    simp only [Option.some.injEq, EntryStats.mk.injEq]
    refine ⟨?_, ?_, ?_⟩
    · simp [sumSizes]
      ring
    · simp
      omega
    · rfl

theorem bumpList_none (files : List StorageUsageFile) (hne : files ≠ []) :
    bumpList none files = some
      { size := sumSizes files
        itemCount := files.length
        lastChanged := tsFold none files } := by
  cases files with
  | nil => exact absurd rfl hne
  | cons f fs =>
    have step : bumpList none (f :: fs) = bumpList (some (bumpStats none f)) fs := rfl
    rw [step, bumpList_some]
    have harr : bumpStats none f =
        { size := (0 : Int) + f.size
          itemCount := 0 + 1
          lastChanged := latestTimestamp none f.last_changed } := rfl
    rw [harr]
    simp only [Option.some.injEq, EntryStats.mk.injEq]
    refine ⟨?_, ?_, ?_⟩
    · simp [sumSizes]
    · simp
      omega
    · rfl

theorem alGet_buildStats (files : List StorageUsageFile) (p : String) :
    alGet (buildStats files) p =
      if contributorsOf p files = [] then none
      else some
        { size := sumSizes (contributorsOf p files)
          itemCount := (contributorsOf p files).length
          lastChanged := tsFold none (contributorsOf p files) } := by
  have h1 : buildStats files =
      files.foldl (fun st f => statsAddFile st f (fileChain f)) [] := by
    rw [buildStats, buildMaps, foldl_treeStep_split]
  rw [h1, alGet_statsFold]
  by_cases h : contributorsOf p files = []
  · rw [if_pos h]
    rw [contributorsOf] at h
    rw [h]
    rfl
  · rw [if_neg h]
    rw [contributorsOf] at h ⊢
    exact bumpList_none _ h

theorem sizeLookup_buildStats (files : List StorageUsageFile) (p : String) :
    sizeLookup (buildStats files) p = sumSizes (contributorsOf p files) := by
  rw [sizeLookup, alGet_buildStats]
  by_cases h : contributorsOf p files = []
  · rw [if_pos h, h]
    rfl
  · rw [if_neg h]

/-! ### Child map characterization -/

theorem childListOf_addChildEdge (m : ChildMap) (p c q : String) :
    childListOf (addChildEdge m p c) q =
      if p = q then
        (if c ∈ childListOf m p then childListOf m p else childListOf m p ++ [c])
      else childListOf m q := by
  rw [addChildEdge, childListOf, alGet_alSet]
  by_cases h : p = q
  · rw [if_pos h, if_pos h, childListOf]
  · rw [if_neg h, if_neg h, childListOf]

theorem childListOf_pairsFold (prs : List (String × String)) (m : ChildMap) (q : String) :
    childListOf (prs.foldl (fun ch pr => addChildEdge ch pr.1 pr.2) m) q =
      addAll (childListOf m q)
        (prs.filterMap (fun pr => if pr.1 = q then some pr.2 else none)) := by
  induction prs generalizing m with
  | nil => rfl
  | cons pr prs2 ih =>
    rw [List.foldl_cons, ih]
    by_cases h : pr.1 = q
    · rw [List.filterMap_cons_some (by rw [if_pos h])]
      rw [childListOf_addChildEdge, if_pos h]
      subst h
      rfl
    · rw [List.filterMap_cons_none (by rw [if_neg h])]
      rw [childListOf_addChildEdge, if_neg h]

theorem addAll_append (cur l1 l2 : List String) :
    addAll cur (l1 ++ l2) = addAll (addAll cur l1) l2 :=
  List.foldl_append _ _ _ _

theorem childListOf_childFold (files : List StorageUsageFile) (m : ChildMap)
    (q : String) :
    childListOf (files.foldl (fun ch f => childrenAddFile ch (fileChain f)) m) q =
      addAll (childListOf m q) (files.flatMap (pairsFor q)) := by
  induction files generalizing m with
  | nil => rfl
  | cons f fs ih =>
    rw [List.foldl_cons, ih, List.flatMap_cons, addAll_append]
    have step : childListOf (childrenAddFile m (fileChain f)) q =
        addAll (childListOf m q) (pairsFor q f) := by
      rw [childrenAddFile, childListOf_pairsFold, pairsFor]
    rw [step]

theorem childListOf_buildChildren (files : List StorageUsageFile) (q : String) :
    childListOf (buildChildren files) q = discoveredChildren files q := by
  have h1 : buildChildren files =
      files.foldl (fun ch f => childrenAddFile ch (fileChain f)) [] := by
    rw [buildChildren, buildMaps, foldl_treeStep_split]
  rw [h1, childListOf_childFold, discoveredChildren]
  rfl

theorem mem_addAll (l : List String) : ∀ (cur : List String) (x : String),
    x ∈ addAll cur l ↔ x ∈ cur ∨ x ∈ l := by
  induction l with
  | nil => intro cur x; simp [addAll]
  | cons c l2 ih =>
    intro cur x
    have step : addAll cur (c :: l2) =
        addAll (if c ∈ cur then cur else cur ++ [c]) l2 := rfl
    rw [step, ih]
    by_cases h : c ∈ cur
    · rw [if_pos h]
      constructor
      · rintro (hx | hx)
        · exact Or.inl hx
        · exact Or.inr (List.mem_cons_of_mem c hx)
      · rintro (hx | hx)
        · exact Or.inl hx
        · rcases List.mem_cons.mp hx with rfl | hx
          · exact Or.inl h
          · exact Or.inr hx
    · rw [if_neg h]
      simp only [List.mem_append, List.mem_singleton, List.mem_cons]
      tauto

theorem addAll_nodup (l : List String) : ∀ (cur : List String), cur.Nodup →
    (addAll cur l).Nodup := by
  induction l with
  | nil => intro cur h; exact h
  | cons c l2 ih =>
    intro cur h
    have step : addAll cur (c :: l2) =
        addAll (if c ∈ cur then cur else cur ++ [c]) l2 := rfl
    rw [step]
    by_cases hc : c ∈ cur
    · rw [if_pos hc]
      exact ih cur h
    · rw [if_neg hc]
      refine ih (cur ++ [c]) ?_
      simp [List.nodup_append, h, hc]

theorem discoveredChildren_nodup (files : List StorageUsageFile) (q : String) :
    (discoveredChildren files q).Nodup :=
  addAll_nodup _ [] List.nodup_nil

theorem mem_pairsFor (q c : String) (f : StorageUsageFile) :
    c ∈ pairsFor q f ↔ (q, c) ∈ consecPairs (fileChain f) := by
  rw [pairsFor]
  rw [List.mem_filterMap]
  constructor
  · rintro ⟨pr, hpr, hsel⟩
    by_cases h : pr.1 = q
    · rw [if_pos h] at hsel
      have : pr = (q, c) := by
        obtain ⟨a, b⟩ := pr
        simp at h hsel
        rw [h, hsel]
      rw [← this]
      exact hpr
    · rw [if_neg h] at hsel
      exact absurd hsel (by simp)
  · intro h
    exact ⟨(q, c), h, by rw [if_pos rfl]⟩

theorem mem_discoveredChildren (files : List StorageUsageFile) (q c : String) :
    c ∈ discoveredChildren files q ↔
      ∃ f ∈ files, (q, c) ∈ consecPairs (fileChain f) := by
  rw [discoveredChildren, mem_addAll]
  simp only [List.not_mem_nil, false_or, List.mem_flatMap]
  constructor
  · rintro ⟨f, hf, hc⟩
    exact ⟨f, hf, (mem_pairsFor q c f).mp hc⟩
  · rintro ⟨f, hf, hc⟩
    exact ⟨f, hf, (mem_pairsFor q c f).mpr hc⟩

/-! ### Tree builder lemmas -/

theorem not_inForest_nil (e : StorageEntry) : ¬ InForest e [] := by
  intro h
  cases h with
  | here hmem => exact absurd hmem (List.not_mem_nil e)
  | deeper hp _ => exact absurd hp (List.not_mem_nil _)

theorem mem_buildEntries {fuel : Nat} {parent : String} {stats : StatsMap}
    {children : ChildMap} {T : Int} {e : StorageEntry}
    (he : e ∈ buildStorageEntriesFor fuel parent stats children T) :
    ∃ fuel2 data, fuel = fuel2 + 1 ∧
      e.path ∈ childListOf children parent ∧
      alGet stats e.path = some data ∧
      e.name = displayName e.path ∧
      e.size = data.size ∧ e.itemCount = data.itemCount ∧
      e.lastChanged = data.lastChanged ∧
      e.percent = (if T = 0 then 0 else (data.size : ℚ) / (T : ℚ) * 100) ∧
      e.children = buildStorageEntriesFor fuel2 e.path stats children data.size := by
  cases fuel with
  | zero => exact absurd he (List.not_mem_nil e)
  | succ fuel2 =>
    rw [buildStorageEntriesFor] at he
    rcases halg : alGet children parent with _ | childPaths
    · rw [halg] at he
      exact absurd he (List.not_mem_nil e)
    · rw [halg] at he
      obtain ⟨x, hx, hg⟩ := List.mem_filterMap.mp he
      have hxmem : x ∈ childPaths := (mem_sortByLe _ x childPaths).mp hx
      rcases hst : alGet stats x with _ | data
      · rw [hst] at hg
        exact absurd hg (by simp)
      · rw [hst] at hg
        injection hg with hg2
        subst hg2
        refine ⟨fuel2, data, rfl, ?_, ?_, rfl, rfl, rfl, rfl, rfl, rfl⟩
        · rw [childListOf, halg]
          exact hxmem
        · exact hst

theorem inForest_buildEntries : ∀ (fuel : Nat) (parent : String) (stats : StatsMap)
    (children : ChildMap) (T : Int) (e : StorageEntry),
    InForest e (buildStorageEntriesFor fuel parent stats children T) →
    ∃ fuel2 data q, e.path ∈ childListOf children q ∧
      alGet stats e.path = some data ∧
      e.name = displayName e.path ∧ e.size = data.size ∧
      e.itemCount = data.itemCount ∧ e.lastChanged = data.lastChanged ∧
      e.children = buildStorageEntriesFor fuel2 e.path stats children data.size := by
  intro fuel
  induction fuel with
  | zero =>
    intro parent stats children T e h
    exact absurd h (not_inForest_nil e)
  | succ fuel2 ih =>
    intro parent stats children T e h
    cases h with
    | here hmem =>
      obtain ⟨f2, data, _, hch, hst, hname, hsz, hcnt, hlc, _, hchildren⟩ :=
        mem_buildEntries hmem
      exact ⟨f2, data, parent, hch, hst, hname, hsz, hcnt, hlc, hchildren⟩
    | deeper hp hin =>
      obtain ⟨f2, data, hf2, hch, hst, hname, hsz, hcnt, hlc, _, hchildren⟩ :=
        mem_buildEntries hp
      have hf2eq : f2 = fuel2 := by omega
      subst hf2eq
      rw [hchildren] at hin
      exact ih _ stats children data.size e hin

theorem buildEntries_sorted (fuel : Nat) (parent : String) (stats : StatsMap)
    (children : ChildMap) (T : Int) :
    (buildStorageEntriesFor fuel parent stats children T).Pairwise
      (fun a b => b.size ≤ a.size) := by
  cases fuel with
  | zero => exact List.Pairwise.nil
  | succ fuel2 =>
    rw [buildStorageEntriesFor]
    rcases halg : alGet children parent with _ | childPaths
    · exact List.Pairwise.nil
    · have hsorted : SortedLe (childLe stats) (sortByLe (childLe stats) childPaths) :=
        sortByLe_sorted (childLe stats)
          (fun a b c h1 h2 => keyle_trans (sizeLookup stats) a b c h1 h2)
          (fun a b => keyle_tot (sizeLookup stats) a b) childPaths
      refine pairwise_filterMap_of _ ?_ hsorted
      intro a b x y hR hfa hfb
      rcases hsa : alGet stats a with _ | da
      · rw [hsa] at hfa
        exact absurd hfa (by simp)
      · rcases hsb : alGet stats b with _ | db
        · rw [hsb] at hfb
          exact absurd hfb (by simp)
        · rw [hsa] at hfa
          rw [hsb] at hfb
          injection hfa with h1
          injection hfb with h2
          subst h1
          subst h2
          have hR2 : sizeLookup stats b ≤ sizeLookup stats a := by
            have : childLe stats a b = true := hR
            rw [childLe] at this
            simpa using this
          have ha2 : sizeLookup stats a = da.size := by rw [sizeLookup, hsa]
          have hb2 : sizeLookup stats b = db.size := by rw [sizeLookup, hsb]
          show db.size ≤ da.size
          rw [← ha2, ← hb2]
          exact hR2

theorem filterMap_paths_generic (g : String → Option StorageEntry) (stats : StatsMap)
    (hg : ∀ x, alGet stats x ≠ none → ∃ e, g x = some e ∧ e.path = x) :
    ∀ l : List String, (∀ x ∈ l, alGet stats x ≠ none) →
      (l.filterMap g).map (fun e => e.path) = l := by
  intro l
  induction l with
  | nil => intro _; rfl
  | cons x xs ih =>
    intro hall
    obtain ⟨e, hge, hep⟩ := hg x (hall x (List.mem_cons_self x xs))
    rw [List.filterMap_cons_some hge, List.map_cons, hep,
      ih (fun y hy => hall y (List.mem_cons_of_mem x hy))]

theorem buildEntries_paths (fuel2 : Nat) (parent : String) (stats : StatsMap)
    (children : ChildMap) (T : Int)
    (hall : ∀ x ∈ childListOf children parent, alGet stats x ≠ none) :
    (buildStorageEntriesFor (fuel2 + 1) parent stats children T).map (fun e => e.path) =
      sortByLe (childLe stats) (childListOf children parent) := by
  rw [buildStorageEntriesFor]
  rcases halg : alGet children parent with _ | childPaths
  · rw [childListOf, halg]
    rfl
  · have hcl : childListOf children parent = childPaths := by rw [childListOf, halg]
    rw [hcl] at hall ⊢
    refine filterMap_paths_generic _ stats ?_ _ ?_
    · intro x hx
      rcases hsx : alGet stats x with _ | data
      · exact absurd hsx hx
      · exact ⟨{ path := x, name := displayName x, size := data.size,
                 itemCount := data.itemCount, lastChanged := data.lastChanged,
                 percent := if T = 0 then 0 else (data.size : ℚ) / (T : ℚ) * 100,
                 children := buildStorageEntriesFor fuel2 x stats children data.size },
               rfl, rfl⟩
    · intro x hx
      exact hall x ((mem_sortByLe _ x childPaths).mp hx)

theorem filter_size_map_path_generic (stats : StatsMap) (s : Int) :
    ∀ l : List StorageEntry, (∀ e ∈ l, e.size = sizeLookup stats e.path) →
    (l.filter (fun e => decide (e.size = s))).map (fun e => e.path) =
      (l.map (fun e => e.path)).filter (fun p => decide (sizeLookup stats p = s)) := by
  intro l
  induction l with
  | nil => intro _; rfl
  | cons e es ih =>
    intro hall
    have he : e.size = sizeLookup stats e.path := hall e (List.mem_cons_self e es)
    have ihr := ih (fun x hx => hall x (List.mem_cons_of_mem e hx))
    by_cases hs : e.size = s
    · rw [List.filter_cons_of_pos (by simp [hs]), List.map_cons, List.map_cons,
        List.filter_cons_of_pos (by simp [← he, hs]), ihr]
    · rw [List.filter_cons_of_neg (by simp [hs]), List.map_cons,
        List.filter_cons_of_neg (by simp [← he, hs]), ihr]

theorem mem_build_size_eq {fuel : Nat} {parent : String} {stats : StatsMap}
    {children : ChildMap} {T : Int} {e : StorageEntry}
    (he : e ∈ buildStorageEntriesFor fuel parent stats children T) :
    e.size = sizeLookup stats e.path := by
  obtain ⟨f2, data, _, _, hst, _, hsz, _⟩ := mem_buildEntries he
  rw [hsz, sizeLookup, hst]

theorem buildEntries_filter_size (fuel2 : Nat) (parent : String) (stats : StatsMap)
    (children : ChildMap) (T : Int)
    (hall : ∀ x ∈ childListOf children parent, alGet stats x ≠ none) (s : Int) :
    ((buildStorageEntriesFor (fuel2 + 1) parent stats children T).filter
        (fun e => decide (e.size = s))).map (fun e => e.path) =
      (childListOf children parent).filter
        (fun p => decide (sizeLookup stats p = s)) := by
  rw [filter_size_map_path_generic stats s _
    (fun e he => mem_build_size_eq he)]
  rw [buildEntries_paths fuel2 parent stats children T hall]
  exact sortBy_key_filter (sizeLookup stats) s (childListOf children parent)

theorem buildEntries_sum (fuel2 : Nat) (parent : String) (stats : StatsMap)
    (children : ChildMap) (T : Int)
    (hall : ∀ x ∈ childListOf children parent, alGet stats x ≠ none) :
    sumEntrySizes (buildStorageEntriesFor (fuel2 + 1) parent stats children T) =
      ((childListOf children parent).map (fun p => sizeLookup stats p)).sum := by
  rw [sumEntrySizes]
  have h1 : (buildStorageEntriesFor (fuel2 + 1) parent stats children T).map
      (fun e => e.size) =
      (buildStorageEntriesFor (fuel2 + 1) parent stats children T).map
      (fun e => sizeLookup stats e.path) :=
    List.map_congr_left (fun e he => mem_build_size_eq he)
  rw [h1]
  have h2 : (buildStorageEntriesFor (fuel2 + 1) parent stats children T).map
      (fun e => sizeLookup stats e.path) =
      ((buildStorageEntriesFor (fuel2 + 1) parent stats children T).map
        (fun e => e.path)).map (fun p => sizeLookup stats p) := by
    rw [List.map_map]
    rfl
  rw [h2, buildEntries_paths fuel2 parent stats children T hall]
  have hperm : (sortByLe (childLe stats) (childListOf children parent)).Perm
      (childListOf children parent) := sortByLe_perm _ _
  exact (hperm.map (fun p => sizeLookup stats p)).sum_eq

/-! ### Children are well-formed contributors -/

theorem child_edge_of_mem (files : List StorageUsageFile) (q c : String)
    (hc : c ∈ childListOf (buildChildren files) q) :
    ∃ f ∈ files, (q, c) ∈ consecPairs (fileChain f) := by
  rw [childListOf_buildChildren] at hc
  exact (mem_discoveredChildren files q c).mp hc

theorem child_shape (files : List StorageUsageFile) (q c : String)
    (hc : c ∈ childListOf (buildChildren files) q) :
    ∃ t s f, f ∈ files ∧ ValidSegs (t ++ [s]) ∧
      (t ++ [s]) <+: canonSegs (normalizePath f.path) ∧
      q = joinSegs t ∧ c = joinSegs (t ++ [s]) := by
  obtain ⟨f, hf, hedge⟩ := child_edge_of_mem files q c hc
  obtain ⟨t, s, hv, hpre, hq, hcs⟩ := edge_shape (normalizePath f.path) q c hedge
  exact ⟨t, s, f, hf, hv, hpre, hq, hcs⟩

theorem child_path_ne_empty (files : List StorageUsageFile) (q c : String)
    (hc : c ∈ childListOf (buildChildren files) q) : c ≠ "" := by
  obtain ⟨t, s, f, _, hv, _, _, hcs⟩ := child_shape files q c hc
  rw [hcs]
  exact joinSegs_ne_empty _ (by simp) hv

theorem child_stats_ne_none (files : List StorageUsageFile) (q c : String)
    (hc : c ∈ childListOf (buildChildren files) q) :
    alGet (buildStats files) c ≠ none := by
  obtain ⟨t, s, f, hf, hv, hpre, _, hcs⟩ := child_shape files q c hc
  have hmem : c ∈ fileChain f := by
    rw [hcs, fileChain]
    exact (mem_ancestorChain_iff (t ++ [s]) (normalizePath f.path) hv (by simp)).mpr hpre
  have hcontrib : f ∈ contributorsOf c files := by
    rw [contributorsOf, List.mem_filter]
    exact ⟨hf, by simp [contributesTo, hmem]⟩
  rw [alGet_buildStats]
  rw [if_neg (List.ne_nil_of_mem hcontrib)]
  simp

theorem contrib_of_child_contrib (f0 : StorageUsageFile)
    (q c : String) (hedge : (q, c) ∈ consecPairs (fileChain f0)) :
    ∀ g : StorageUsageFile, contributesTo c g = true → contributesTo q g = true := by
  obtain ⟨t, s, hv, _, hq, hcs⟩ := edge_shape (normalizePath f0.path) q c hedge
  intro g hg
  rw [contributesTo, decide_eq_true_eq] at hg ⊢
  rw [hcs, fileChain] at hg
  have hpre2 : (t ++ [s]) <+: canonSegs (normalizePath g.path) :=
    (mem_ancestorChain_iff (t ++ [s]) (normalizePath g.path) hv (by simp)).mp hg
  cases t with
  | nil =>
    rw [hq]
    exact root_mem_fileChain g
  | cons t0 t2 =>
    have hvt : ValidSegs (t0 :: t2) := fun x hx => hv x (List.mem_append_left _ hx)
    rw [hq, fileChain]
    refine (mem_ancestorChain_iff (t0 :: t2) (normalizePath g.path) hvt
      (List.cons_ne_nil t0 t2)).mpr ?_
    exact (List.prefix_append (t0 :: t2) [s]).trans hpre2

theorem sumSizes_cons (f : StorageUsageFile) (l : List StorageUsageFile) :
    sumSizes (f :: l) = f.size + sumSizes l := by
  rw [sumSizes, List.map_cons, List.sum_cons, sumSizes]

theorem sumSizes_nonneg (files : List StorageUsageFile)
    (hpos : ∀ f ∈ files, 0 ≤ f.size) : 0 ≤ sumSizes files := by
  induction files with
  | nil => rfl
  | cons f fs ih =>
    rw [sumSizes_cons]
    have h1 := hpos f (List.mem_cons_self f fs)
    have h2 := ih (fun g hg => hpos g (List.mem_cons_of_mem f hg))
    omega

theorem sumSizes_filter_mono (files : List StorageUsageFile)
    (P Q : StorageUsageFile → Bool) (himp : ∀ f, P f = true → Q f = true)
    (hpos : ∀ f ∈ files, 0 ≤ f.size) :
    sumSizes (files.filter P) ≤ sumSizes (files.filter Q) := by
  induction files with
  | nil => exact le_refl _
  | cons f fs ih =>
    have hf := hpos f (List.mem_cons_self f fs)
    have ihr := ih (fun g hg => hpos g (List.mem_cons_of_mem f hg))
    by_cases hp : P f = true
    · rw [List.filter_cons_of_pos hp, List.filter_cons_of_pos (himp f hp),
        sumSizes_cons, sumSizes_cons]
      omega
    · rw [List.filter_cons_of_neg (by simpa using hp)]
      by_cases hq : Q f = true
      · rw [List.filter_cons_of_pos hq, sumSizes_cons]
        omega
      · rw [List.filter_cons_of_neg (by simpa using hq)]
        exact ihr

theorem child_size_le_parent (files : List StorageUsageFile) (q c : String)
    (hc : c ∈ childListOf (buildChildren files) q)
    (hpos : ∀ f ∈ files, 0 ≤ f.size) :
    sizeLookup (buildStats files) c ≤ sizeLookup (buildStats files) q := by
  obtain ⟨f0, _, hedge⟩ := child_edge_of_mem files q c hc
  rw [sizeLookup_buildStats, sizeLookup_buildStats, contributorsOf, contributorsOf]
  exact sumSizes_filter_mono files _ _ (contrib_of_child_contrib f0 q c hedge) hpos

theorem child_size_nonneg (files : List StorageUsageFile) (c : String)
    (hpos : ∀ f ∈ files, 0 ≤ f.size) :
    0 ≤ sizeLookup (buildStats files) c := by
  rw [sizeLookup_buildStats]
  refine sumSizes_nonneg _ ?_
  intro f hf
  exact hpos f (List.mem_filter.mp hf).1

theorem inForest_member_level (stats : StatsMap) (children : ChildMap) :
    ∀ (fuel : Nat) (p : String) (e : StorageEntry),
    InForest e (buildStorageEntriesFor fuel p stats children (sizeLookup stats p)) →
    ∃ fuel2 q, e ∈ buildStorageEntriesFor fuel2 q stats children (sizeLookup stats q) := by
  intro fuel
  induction fuel with
  | zero =>
    intro p e h
    exact absurd h (not_inForest_nil e)
  | succ f2 ih =>
    intro p e h
    cases h with
    | here hmem => exact ⟨f2 + 1, p, hmem⟩
    | deeper hp hin =>
      rename_i pe
      obtain ⟨f3, data, hf3, _, hst, _, _, _, _, _, hch⟩ := mem_buildEntries hp
      have hf3e : f3 = f2 := by omega
      subst hf3e
      rw [hch] at hin
      have hrw : data.size = sizeLookup stats pe.path := by rw [sizeLookup, hst]
      rw [hrw] at hin
      exact ih pe.path e hin

theorem sizeLookup_pos_of_ne (files : List StorageUsageFile) (q : String)
    (hpos : ∀ f ∈ files, 0 ≤ f.size)
    (hne : sizeLookup (buildStats files) q ≠ 0) :
    0 < sizeLookup (buildStats files) q := by
  have := child_size_nonneg files q hpos
  omega

theorem buildEntries_percent_bounds (files : List StorageUsageFile)
    (hpos : ∀ f ∈ files, 0 ≤ f.size) (fuel : Nat) (q : String) (e : StorageEntry)
    (he : e ∈ buildStorageEntriesFor fuel q (buildStats files) (buildChildren files)
      (sizeLookup (buildStats files) q)) :
    0 ≤ e.percent ∧ e.percent ≤ 100 := by
  obtain ⟨f2, data, _, hch, hst, _, hsz, _, _, hpct, _⟩ := mem_buildEntries he
  by_cases hT : sizeLookup (buildStats files) q = 0
  · rw [hpct, if_pos hT]
    norm_num
  · rw [hpct, if_neg hT]
    have hdsz : data.size = sizeLookup (buildStats files) e.path := by
      rw [sizeLookup, hst]
    have hcle : data.size ≤ sizeLookup (buildStats files) q := by
      rw [hdsz]
      exact child_size_le_parent files q e.path hch hpos
    have h0 : 0 ≤ data.size := by
      rw [hdsz]
      exact child_size_nonneg files e.path hpos
    have hTpos : 0 < sizeLookup (buildStats files) q :=
      sizeLookup_pos_of_ne files q hpos hT
    have hq1 : (0 : ℚ) ≤ (data.size : ℚ) / (sizeLookup (buildStats files) q : ℚ) :=
      div_nonneg (by exact_mod_cast h0) (by exact_mod_cast le_of_lt hTpos)
    have hq2 : (data.size : ℚ) / (sizeLookup (buildStats files) q : ℚ) ≤ 1 :=
      (div_le_one (by exact_mod_cast hTpos)).mpr (by exact_mod_cast hcle)
    constructor
    · exact mul_nonneg hq1 (by norm_num)
    · calc (data.size : ℚ) / (sizeLookup (buildStats files) q : ℚ) * 100
          ≤ 1 * 100 := mul_le_mul_of_nonneg_right hq2 (by norm_num)
        _ = 100 := by norm_num

/-! ### Grouping characterization -/

theorem alGet_none_iff {β : Type} (m : List (String × β)) (k : String) :
    alGet m k = none ↔ k ∉ m.map Prod.fst := by
  induction m with
  | nil => simp [alGet]
  | cons kv rest ih =>
    obtain ⟨k0, v0⟩ := kv
    by_cases h : k0 = k
    · subst h
      simp [alGet]
    · rw [alGet, if_neg h, ih, List.map_cons]
      constructor
      · intro hk hmem
        rcases List.mem_cons.mp hmem with he | he
        · exact h he.symm
        · exact hk he
      · intro hk hmem
        exact hk (List.mem_cons_of_mem _ hmem)

theorem alSet_keys {β : Type} (m : List (String × β)) (k : String) (v : β) :
    (alSet m k v).map Prod.fst =
      if k ∈ m.map Prod.fst then m.map Prod.fst else m.map Prod.fst ++ [k] := by
  induction m with
  | nil => simp [alSet]
  | cons kv rest ih =>
    obtain ⟨k0, v0⟩ := kv
    by_cases h : k0 = k
    · subst h
      simp [alSet]
    · rw [alSet, if_neg h, List.map_cons, ih, List.map_cons]
      by_cases hm : k ∈ rest.map Prod.fst
      · rw [if_pos hm, if_pos (by simp [hm])]
      · have hcond : k ∉ (k0, v0).1 :: List.map Prod.fst rest := by
          intro hmem
          rcases List.mem_cons.mp hmem with he | he
          · exact h he.symm
          · exact hm he
        rw [if_neg hm, if_neg hcond, List.cons_append]

theorem mem_alGet_of_nodupKeys {β : Type} (m : List (String × β)) (k : String) (v : β)
    (hnd : (m.map Prod.fst).Nodup) (hmem : (k, v) ∈ m) : alGet m k = some v := by
  induction m with
  | nil => exact absurd hmem (List.not_mem_nil _)
  | cons kv rest ih =>
    obtain ⟨k0, v0⟩ := kv
    rw [List.map_cons, List.nodup_cons] at hnd
    rcases List.mem_cons.mp hmem with heq | hmem2
    · injection heq with h1 h2
      subst h1
      subst h2
      rw [alGet, if_pos rfl]
    · have hk : k ∈ rest.map Prod.fst :=
        List.mem_map.mpr ⟨(k, v), hmem2, rfl⟩
      have hne : ¬ k0 = k := fun he => hnd.1 (he ▸ hk)
      rw [alGet, if_neg hne]
      exact ih hnd.2 hmem2

theorem groupFold_nodupKeys : ∀ (files : List StorageUsageFile)
    (m : List (String × NodeGroup)), (m.map Prod.fst).Nodup →
    ((files.foldl groupStep m).map Prod.fst).Nodup := by
  intro files
  induction files with
  | nil => intro m h; exact h
  | cons f fs ih =>
    intro m h
    rw [List.foldl_cons]
    refine ih (groupStep m f) ?_
    rw [groupStep]
    rcases hk : alGet m (groupKey f) with _ | g
    · have hnk : groupKey f ∉ m.map Prod.fst := (alGet_none_iff m (groupKey f)).mp hk
      simp [List.nodup_append, h, hnk]
    · have hmem : groupKey f ∈ m.map Prod.fst := by
        by_contra hc
        rw [← alGet_none_iff m (groupKey f)] at hc
        rw [hk] at hc
        exact absurd hc (by simp)
      rw [alSet_keys, if_pos hmem]
      exact h

theorem nodeRecords_cons_of_eq (f : StorageUsageFile) (fs : List StorageUsageFile)
    (key : String) (h : groupKey f = key) :
    nodeRecords (f :: fs) key = f :: nodeRecords fs key := by
  rw [nodeRecords, List.filter_cons_of_pos (by simp [h]), nodeRecords]

theorem nodeRecords_cons_of_ne (f : StorageUsageFile) (fs : List StorageUsageFile)
    (key : String) (h : ¬ groupKey f = key) :
    nodeRecords (f :: fs) key = nodeRecords fs key := by
  rw [nodeRecords, List.filter_cons_of_neg (by simp [h]), nodeRecords]

theorem alGet_groupFold : ∀ (files : List StorageUsageFile)
    (m : List (String × NodeGroup)) (key : String),
    alGet (files.foldl groupStep m) key =
      match alGet m key with
      | some g => some { g with records := g.records ++ nodeRecords files key }
      | none => mkFreshGroup (nodeRecords files key) := by
  intro files
  induction files with
  | nil =>
    intro m key
    rcases hk : alGet m key with _ | g
    · simp [nodeRecords, mkFreshGroup, hk]
    · obtain ⟨nm, id0, recs⟩ := g
      simp [nodeRecords, hk]
  | cons f fs ih =>
    intro m key
    rw [List.foldl_cons, ih (groupStep m f) key, groupStep]
    rcases hk : alGet m (groupKey f) with _ | g
    · rw [alGet_append]
      by_cases hkey : groupKey f = key
      · subst hkey
        rw [hk]
        rw [alGet, if_pos rfl]
        rw [nodeRecords_cons_of_eq f fs _ rfl]
        rfl
      · rcases hk2 : alGet m key with _ | g2
        · rw [alGet, if_neg hkey, alGet]
          rw [nodeRecords_cons_of_ne f fs key hkey]
        · rw [nodeRecords_cons_of_ne f fs key hkey]
    · by_cases hkey : groupKey f = key
      · subst hkey
        rw [alGet_alSet, if_pos rfl, hk, nodeRecords_cons_of_eq f fs _ rfl]
        simp [List.append_assoc]
      · rw [alGet_alSet, if_neg hkey, nodeRecords_cons_of_ne f fs key hkey]

theorem formatNodeId_eta (v : Option String) (fb : String) :
    (if jsStringOr v fb = "" then fb else jsStringOr v fb) = jsStringOr v fb := by
  rcases v with _ | s
  · rw [jsStringOr]
    by_cases h : fb = "" <;> simp [h]
  · rw [jsStringOr]
    by_cases hs : s = ""
    · rw [if_pos hs]
      by_cases h : fb = "" <;> simp [h]
    · rw [if_neg hs, if_neg hs]

theorem node_view (lc : String → String → Int) (files : List StorageUsageFile)
    (n : StorageNode) (hn : n ∈ buildStorageNodes lc files) :
    ∃ key, nodeRecords files key ≠ [] ∧
      n.totalSize = sizeLookup (buildStats (nodeRecords files key)) "" ∧
      n.entries = buildStorageEntriesFor ((buildStats (nodeRecords files key)).length + 1)
        "" (buildStats (nodeRecords files key)) (buildChildren (nodeRecords files key))
        (sizeLookup (buildStats (nodeRecords files key)) "") ∧
      (∃ f0 rest, nodeRecords files key = f0 :: rest ∧
        n.name = jsStringOr f0.node_name (formatNodeId f0.node_id) ∧
        n.id = formatNodeId f0.node_id) := by
  rw [buildStorageNodes] at hn
  by_cases hemp : files.isEmpty
  · rw [if_pos hemp] at hn
    exact absurd hn (List.not_mem_nil n)
  · rw [if_neg hemp] at hn
    have hn2 := (mem_sortByLe _ n _).mp hn
    obtain ⟨kv, hkv, hmk⟩ := List.mem_map.mp hn2
    have hnd := groupFold_nodupKeys files [] (by simp)
    have hget : alGet (groupFiles files) kv.1 = some kv.2 :=
      mem_alGet_of_nodupKeys _ _ _ hnd hkv
    rw [groupFiles, alGet_groupFold files [] kv.1] at hget
    have hget2 : mkFreshGroup (nodeRecords files kv.1) = some kv.2 := hget
    cases hrec : nodeRecords files kv.1 with
    | nil =>
      rw [hrec] at hget2
      exact absurd hget2 (by simp [mkFreshGroup])
    | cons f0 rest =>
      rw [hrec, mkFreshGroup] at hget2
      injection hget2 with hg
      refine ⟨kv.1, by rw [hrec]; exact List.cons_ne_nil f0 rest, ?_, ?_, f0, rest, hrec, ?_, ?_⟩
      · rw [← hmk, mkStorageNode, ← hg]
        rw [hrec]
        rfl
      · rw [← hmk, mkStorageNode, ← hg]
        rw [hrec]
        rfl
      · rw [← hmk, mkStorageNode, ← hg]
        exact formatNodeId_eta f0.node_name (formatNodeId f0.node_id)
      · rw [← hmk, mkStorageNode, ← hg]

theorem totalSize_eq_sumSizes (files : List StorageUsageFile) :
    sizeLookup (buildStats files) "" = sumSizes files := by
  rw [sizeLookup_buildStats, contributorsOf]
  congr 1
  refine List.filter_eq_self.mpr ?_
  intro f _
  simp [contributesTo, root_mem_fileChain]

/-! ### Evaluation helpers on the concrete inputs -/

theorem eval_doubleSlash : buildStorageNodes lcStd demoDoubleSlash = [cexC1Node] := rfl

theorem eval_lateName : buildStorageNodes lcStd demoLateName = [c5Node] := rfl

theorem eval_onlyChild : buildStorageNodes lcStd demoOnlyChild = [c2Node] := rfl

theorem eval_merge : buildStorageNodes lcStd demoMerge = [c7Node] := rfl

theorem eval_emptyPath : buildStorageNodes lcStd demoEmptyPath = [c10Node] := rfl

theorem eval_emptyTs : buildStorageNodes lcStd demoEmptyTs = [c6Node] := rfl

theorem mem_doubleSlash : cexC1Node ∈ buildStorageNodes lcStd demoDoubleSlash := by
  rw [eval_doubleSlash]
  exact List.mem_cons_self _ _

theorem mem_lateName : c5Node ∈ buildStorageNodes lcStd demoLateName := by
  rw [eval_lateName]
  exact List.mem_cons_self _ _

theorem mem_onlyChild : c2Node ∈ buildStorageNodes lcStd demoOnlyChild := by
  rw [eval_onlyChild]
  exact List.mem_cons_self _ _

theorem mem_merge : c7Node ∈ buildStorageNodes lcStd demoMerge := by
  rw [eval_merge]
  exact List.mem_cons_self _ _

theorem mem_emptyPath : c10Node ∈ buildStorageNodes lcStd demoEmptyPath := by
  rw [eval_emptyPath]
  exact List.mem_cons_self _ _

theorem mem_emptyTs : c6Node ∈ buildStorageNodes lcStd demoEmptyTs := by
  rw [eval_emptyTs]
  exact List.mem_cons_self _ _

theorem inForest_cexAB : InForest cexC1EntryAB cexC1Node.entries :=
  InForest.deeper (List.mem_cons_self _ _) (InForest.here (List.mem_cons_self _ _))

/-! ### Per-entry statistics through the corrected matching relation -/

theorem contributes_eq_specMatch (recs : List StorageUsageFile) (q p : String)
    (hch : p ∈ childListOf (buildChildren recs) q) :
    ∀ g : StorageUsageFile, contributesTo p g = specMatchCanon p g := by
  obtain ⟨t, s, f1, _, hv, _, _, hP⟩ := child_shape recs q p hch
  intro g
  rw [Bool.eq_iff_iff, contributesTo, decide_eq_true_eq, hP]
  exact (specMatchCanon_iff_mem_chain (t ++ [s]) g hv (by simp)).symm

theorem inForest_stats (recs : List StorageUsageFile) (e : StorageEntry)
    (he : InForest e (buildStorageEntriesFor ((buildStats recs).length + 1) ""
      (buildStats recs) (buildChildren recs) (sizeLookup (buildStats recs) ""))) :
    e.size = sumSizes (recs.filter (fun f => specMatchCanon e.path f)) ∧
    e.itemCount = (recs.filter (fun f => specMatchCanon e.path f)).length ∧
    e.lastChanged = tsFold none (recs.filter (fun f => specMatchCanon e.path f)) ∧
    e.path ≠ "" := by
  obtain ⟨f2, data, q, hch, hst, _, hsz, hcnt, hlc, _⟩ :=
    inForest_buildEntries _ "" _ _ _ e he
  have hfilter : recs.filter (contributesTo e.path) =
      recs.filter (fun f => specMatchCanon e.path f) :=
    List.filter_congr (fun g _ => contributes_eq_specMatch recs q e.path hch g)
  have hchar := alGet_buildStats recs e.path
  rw [hst] at hchar
  by_cases hc : contributorsOf e.path recs = []
  · rw [if_pos hc] at hchar
    exact absurd hchar.symm (by simp)
  · rw [if_neg hc] at hchar
    injection hchar with hdata
    rw [contributorsOf, hfilter] at hdata
    refine ⟨?_, ?_, ?_, child_path_ne_empty recs q e.path hch⟩
    · rw [hsz, hdata]
    · rw [hcnt, hdata]
    · rw [hlc, hdata]

/-! ### Timestamp fold: string maximum of the non-empty timestamps, with the
empty string treated as missing by the falsiness guard -/

theorem latest_truthy (c d : String) (hc : c ≠ "") (hd : d ≠ "") :
    latestTimestamp (some c) (some d) = some (max c d) := by
  show (if c = "" then some d else if d = "" then some c
    else if c < d then some d else some c) = some (max c d)
  rw [if_neg hc, if_neg hd]
  rcases lt_trichotomy c d with h | h | h
  · rw [if_pos h, max_eq_right (le_of_lt h)]
  · subst h
    rw [if_neg (lt_irrefl c), max_self]
  · rw [if_neg (not_lt_of_gt h), max_eq_left (le_of_lt h)]

theorem neTimestamps_cons_none (f : StorageUsageFile) (fs : List StorageUsageFile)
    (h : f.last_changed = none) : neTimestamps (f :: fs) = neTimestamps fs := by
  simp only [neTimestamps, List.filterMap_cons_none h]

theorem neTimestamps_cons_empty (f : StorageUsageFile) (fs : List StorageUsageFile)
    (h : f.last_changed = some "") : neTimestamps (f :: fs) = neTimestamps fs := by
  simp only [neTimestamps, List.filterMap_cons_some h]
  rw [List.filter_cons_of_neg (by simp)]

theorem neTimestamps_cons_some (f : StorageUsageFile) (fs : List StorageUsageFile)
    (d : String) (h : f.last_changed = some d) (hd : d ≠ "") :
    neTimestamps (f :: fs) = d :: neTimestamps fs := by
  simp only [neTimestamps, List.filterMap_cons_some h]
  rw [List.filter_cons_of_pos (by simp [hd])]

theorem tsFold_truthy (cs : List StorageUsageFile) : ∀ c : String, c ≠ "" →
    tsFold (some c) cs =
      some ((neTimestamps cs).foldl (fun a b => max a b) c) := by
  induction cs with
  | nil => intro c _; rfl
  | cons f fs ih =>
    intro c hc
    have hstep : tsFold (some c) (f :: fs) =
        tsFold (latestTimestamp (some c) f.last_changed) fs := rfl
    rcases hfc : f.last_changed with _ | d
    · have h2 : latestTimestamp (some c) none = some c := by
        show (if c = "" then none else some c) = some c
        rw [if_neg hc]
      rw [hstep, hfc, h2, ih c hc, neTimestamps_cons_none f fs hfc]
    · by_cases hd : d = ""
      · subst hd
        have h2 : latestTimestamp (some c) (some "") = some c := by
          show (if c = "" then some "" else some c) = some c
          rw [if_neg hc]
        rw [hstep, hfc, h2, ih c hc, neTimestamps_cons_empty f fs hfc]
      · have hmax : max c d ≠ "" := by
          rcases max_choice c d with h | h
          · rw [h]; exact hc
          · rw [h]; exact hd
        rw [hstep, hfc, latest_truthy c d hc hd, ih (max c d) hmax,
          neTimestamps_cons_some f fs d hfc hd, List.foldl_cons]

theorem tsFold_falsy (cs : List StorageUsageFile) : ∀ acc : Option String,
    acc = none ∨ acc = some "" →
    tsFold acc cs =
      if neTimestamps cs = [] then
        (match cs.getLast? with | none => acc | some f => f.last_changed)
      else strMaxList (neTimestamps cs) := by
  induction cs with
  | nil =>
    intro acc hacc
    have h1 : neTimestamps ([] : List StorageUsageFile) = [] := rfl
    rw [h1, if_pos rfl]
    rfl
  | cons f fs ih =>
    intro acc hacc
    have hstep : tsFold acc (f :: fs) =
        tsFold (latestTimestamp acc f.last_changed) fs := rfl
    rcases hfc : f.last_changed with _ | d
    · have h2 : latestTimestamp acc none = none := by
        rcases hacc with h | h
        · rw [h]; rfl
        · rw [h]; rfl
      rw [hstep, hfc, h2, ih none (Or.inl rfl), neTimestamps_cons_none f fs hfc]
      by_cases hne : neTimestamps fs = []
      · rw [if_pos hne, if_pos hne]
        cases fs with
        | nil => exact hfc.symm
        | cons g gs =>
          rw [List.getLast?_cons_cons]
          cases hgl : (g :: gs).getLast? with
          | none => exact absurd hgl (by simp)
          | some x => rfl
      · rw [if_neg hne, if_neg hne]
    · by_cases hd : d = ""
      · subst hd
        have h2 : latestTimestamp acc (some "") = some "" := by
          rcases hacc with h | h
          · rw [h]; rfl
          · rw [h]; rfl
        rw [hstep, hfc, h2, ih (some "") (Or.inr rfl), neTimestamps_cons_empty f fs hfc]
        by_cases hne : neTimestamps fs = []
        · rw [if_pos hne, if_pos hne]
          cases fs with
          | nil => exact hfc.symm
          | cons g gs =>
            rw [List.getLast?_cons_cons]
            cases hgl : (g :: gs).getLast? with
            | none => exact absurd hgl (by simp)
            | some x => rfl
        · rw [if_neg hne, if_neg hne]
      · have h2 : latestTimestamp acc (some d) = some d := by
          rcases hacc with h | h
          · rw [h]; rfl
          · rw [h]; rfl
        rw [hstep, hfc, h2, tsFold_truthy fs d hd,
          neTimestamps_cons_some f fs d hfc hd,
          if_neg (List.cons_ne_nil d (neTimestamps fs))]
        rfl

theorem tsFold_eq_tsSpec (cs : List StorageUsageFile) :
    tsFold none cs = tsSpec cs :=
  tsFold_falsy cs none (Or.inl rfl)

/-! ### Claim theorems -/

/-- C9: on an empty input sequence the engine returns an empty node list; it
is a total function and signals no error. -/
theorem c9_empty_input (lc : String → String → Int) :
    buildStorageNodes lc [] = [] := rfl

/-- C8: running the engine twice on the same input sequence produces
structurally identical output; the embedded engine is a pure function of its
input with no state carried between invocations. -/
theorem c8_deterministic (lc : String → String → Int)
    (files : List StorageUsageFile) :
    (runEngineTwice lc files).1 = (runEngineTwice lc files).2 := rfl

/-- C1 counterexample: for the single record with raw path `"a//b"` and
size 7 the engine produces the entry `"a/b"` with size 7, while no record's
normalized path equals `"a/b"` or is nested strictly under it, so the sum the
claim prescribes is 0, not 7. -/
theorem c1_counterexample :
    cexC1Node ∈ buildStorageNodes lcStd demoDoubleSlash ∧
    InForest cexC1EntryAB cexC1Node.entries ∧
    cexC1EntryAB.size = 7 ∧
    sumSizes (demoDoubleSlash.filter (fun f => specMatchOrig cexC1EntryAB.path f)) = 0 :=
  ⟨mem_doubleSlash, inForest_cexAB, rfl, rfl⟩

/-- C1 (amended): for every node of the output there is a grouping key whose
records are exactly the node's files; the node's `totalSize` is the sum of
their sizes, and every entry's `size` is the sum of sizes of those records
whose canonical path (normalized, empty segments dropped) equals the entry's
path or is nested strictly under it (path plus `"/"` as a prefix). -/
theorem c1_sizes (lc : String → String → Int) (files : List StorageUsageFile)
    (n : StorageNode) (hn : n ∈ buildStorageNodes lc files) :
    ∃ key, nodeRecords files key ≠ [] ∧
      n.totalSize = sumSizes (nodeRecords files key) ∧
      ∀ e, InForest e n.entries →
        e.size = sumSizes ((nodeRecords files key).filter
          (fun f => specMatchCanon e.path f)) := by
  obtain ⟨key, hne, htot, hent, _⟩ := node_view lc files n hn
  refine ⟨key, hne, by rw [htot, totalSize_eq_sumSizes], ?_⟩
  intro e he
  rw [hent] at he
  exact (inForest_stats (nodeRecords files key) e he).1

/-- Witness for the amended C1 at the double-slash input. -/
theorem c1_sizes_witness :
    (cexC1Node ∈ buildStorageNodes lcStd demoDoubleSlash) ∧
    (∃ key, nodeRecords demoDoubleSlash key ≠ [] ∧
      cexC1Node.totalSize = sumSizes (nodeRecords demoDoubleSlash key) ∧
      ∀ e, InForest e cexC1Node.entries →
        e.size = sumSizes ((nodeRecords demoDoubleSlash key).filter
          (fun f => specMatchCanon e.path f))) :=
  ⟨mem_doubleSlash, c1_sizes lcStd demoDoubleSlash cexC1Node mem_doubleSlash⟩

/-- C4 counterexample: for the single record with raw path `"a//b"` the entry
`"a/b"` has `itemCount` 1, while no record's normalized path equals `"a/b"`
or is nested strictly under it, so the count the claim prescribes is 0. -/
theorem c4_counterexample :
    cexC1Node ∈ buildStorageNodes lcStd demoDoubleSlash ∧
    InForest cexC1EntryAB cexC1Node.entries ∧
    cexC1EntryAB.itemCount = 1 ∧
    (demoDoubleSlash.filter (fun f => specMatchOrig cexC1EntryAB.path f)).length = 0 :=
  ⟨mem_doubleSlash, inForest_cexAB, rfl, rfl⟩

/-- C4 (amended): every entry's `itemCount` equals the number of the node's
records whose canonical path equals the entry's path or is nested strictly
under it, each record counted exactly once per entry. -/
theorem c4_counts (lc : String → String → Int) (files : List StorageUsageFile)
    (n : StorageNode) (hn : n ∈ buildStorageNodes lc files) :
    ∃ key, nodeRecords files key ≠ [] ∧
      ∀ e, InForest e n.entries →
        e.itemCount = ((nodeRecords files key).filter
          (fun f => specMatchCanon e.path f)).length := by
  obtain ⟨key, hne, _, hent, _⟩ := node_view lc files n hn
  refine ⟨key, hne, ?_⟩
  intro e he
  rw [hent] at he
  exact (inForest_stats (nodeRecords files key) e he).2.1

/-- Witness for the amended C4 at the double-slash input. -/
theorem c4_counts_witness :
    (cexC1Node ∈ buildStorageNodes lcStd demoDoubleSlash) ∧
    (∃ key, nodeRecords demoDoubleSlash key ≠ [] ∧
      ∀ e, InForest e cexC1Node.entries →
        e.itemCount = ((nodeRecords demoDoubleSlash key).filter
          (fun f => specMatchCanon e.path f)).length) :=
  ⟨mem_doubleSlash, c4_counts lcStd demoDoubleSlash cexC1Node mem_doubleSlash⟩

/-- C5 counterexample: with a first record carrying the empty name and a
second carrying `"Alpha"` for the same node, the engine names the node by the
hex fallback `"01"`, not by the later record's name `"Alpha"` as the claim
states. -/
theorem c5_counterexample :
    c5Node ∈ buildStorageNodes lcStd demoLateName ∧
    c5Node.name = "01" ∧
    firstNonemptyName demoLateName = some "Alpha" ∧
    c5Node.name ≠ "Alpha" :=
  ⟨mem_lateName, rfl, rfl, by decide⟩

/-- C5 (amended): every node's name is computed from the first record of its
group alone: that record's `node_name` when nonempty, otherwise the hex
encoding of that record's `node_id`; records after the first never affect the
name. -/
theorem c5_node_name (lc : String → String → Int) (files : List StorageUsageFile)
    (n : StorageNode) (hn : n ∈ buildStorageNodes lc files) :
    ∃ key f0 rest, nodeRecords files key = f0 :: rest ∧
      n.name = jsStringOr f0.node_name (formatNodeId f0.node_id) ∧
      n.id = formatNodeId f0.node_id := by
  obtain ⟨key, _, _, _, f0, rest, hrec, hname, hid⟩ := node_view lc files n hn
  exact ⟨key, f0, rest, hrec, hname, hid⟩

/-- Witness for the amended C5 at the late-name input. -/
theorem c5_node_name_witness :
    (c5Node ∈ buildStorageNodes lcStd demoLateName) ∧
    (∃ key f0 rest, nodeRecords demoLateName key = f0 :: rest ∧
      c5Node.name = jsStringOr f0.node_name (formatNodeId f0.node_id) ∧
      c5Node.id = formatNodeId f0.node_id) :=
  ⟨mem_lateName, c5_node_name lcStd demoLateName c5Node mem_lateName⟩

/-- C6 counterexample: with a first record carrying the empty-string
timestamp and a second record at the same path carrying none, the engine's
entry has no timestamp, although one contributing file does carry a
timestamp and the plain string maximum over the carried timestamps is the
empty string; the second record's missing timestamp displaced the stored
one, because the source's falsiness guard `if (!current)` treats the empty
string as missing. -/
theorem c6_counterexample :
    c6Node ∈ buildStorageNodes lcStd demoEmptyTs ∧
    InForest c6Entry c6Node.entries ∧
    c6Entry.lastChanged = none ∧
    (demoEmptyTs.filter (fun f => specMatchCanon c6Entry.path f)).filterMap
      (fun f => f.last_changed) = [""] ∧
    strMaxList [""] = some "" ∧
    latestTimestamp (some "") none = none :=
  ⟨mem_emptyTs, InForest.here (List.mem_cons_self _ _), rfl, rfl, rfl, rfl⟩

/-- C6 corrected: every entry's `lastChanged` equals the plain string-order
maximum of the non-empty timestamps among its contributing files when at
least one contributing file carries a non-empty timestamp, and otherwise
equals the last contributing file's `last_changed` verbatim (possibly the
empty string, possibly unset); a non-empty stored timestamp is never
displaced by a missing one, but an empty-string stored timestamp counts as
missing under the source's falsiness guard and is displaced even by a
missing candidate. -/
theorem c6_lastChanged (lc : String → String → Int) (files : List StorageUsageFile)
    (n : StorageNode) (hn : n ∈ buildStorageNodes lc files) :
    (∀ t : String, t ≠ "" → latestTimestamp (some t) none = some t) ∧
    latestTimestamp (some "") none = none ∧
    ∃ key, nodeRecords files key ≠ [] ∧
      ∀ e, InForest e n.entries →
        e.lastChanged = tsSpec
          ((nodeRecords files key).filter (fun f => specMatchCanon e.path f)) := by
  refine ⟨?_, rfl, ?_⟩
  · intro t ht
    show (if t = "" then none else some t) = some t
    rw [if_neg ht]
  · obtain ⟨key, hne, _, hent, _⟩ := node_view lc files n hn
    refine ⟨key, hne, ?_⟩
    intro e he
    rw [hent] at he
    have h := (inForest_stats (nodeRecords files key) e he).2.2.1
    rw [h, tsFold_eq_tsSpec]

/-- Witness for C6 at the empty-string-timestamp input. -/
theorem c6_lastChanged_witness :
    (c6Node ∈ buildStorageNodes lcStd demoEmptyTs) ∧
    ((∀ t : String, t ≠ "" → latestTimestamp (some t) none = some t) ∧
    latestTimestamp (some "") none = none ∧
    ∃ key, nodeRecords demoEmptyTs key ≠ [] ∧
      ∀ e, InForest e c6Node.entries →
        e.lastChanged = tsSpec
          ((nodeRecords demoEmptyTs key).filter
            (fun f => specMatchCanon e.path f))) :=
  ⟨mem_emptyTs, c6_lastChanged lcStd demoEmptyTs c6Node mem_emptyTs⟩

theorem buildEntries_paths_nodup (recs : List StorageUsageFile) (fuel : Nat)
    (p : String) (T : Int) :
    ((buildStorageEntriesFor fuel p (buildStats recs) (buildChildren recs) T).map
      (fun e => e.path)).Nodup := by
  cases fuel with
  | zero => simp [buildStorageEntriesFor]
  | succ f2 =>
    rw [buildEntries_paths f2 p _ _ T (fun x hx => child_stats_ne_none recs p x hx)]
    refine sortByLe_nodup _ _ ?_
    rw [childListOf_buildChildren]
    exact discoveredChildren_nodup recs p

/-- C7: records sharing an identical normalized path merge into a single
entry rather than duplicates: sibling entry paths are always distinct at
every level, and on the merge scenario of the spec (two files `"x.txt"` of
sizes 10 and 15 under one node) the engine yields a single entry of size 25
and item count 2, with no error. -/
theorem c7_merge (lc : String → String → Int) (files : List StorageUsageFile)
    (n : StorageNode) (hn : n ∈ buildStorageNodes lc files) :
    ((n.entries.map (fun e => e.path)).Nodup ∧
     ∀ e, InForest e n.entries → (e.children.map (fun c => c.path)).Nodup) ∧
    buildStorageNodes lcStd demoMerge = [c7Node] ∧
    c7Node.entries = [c7Entry] ∧ c7Entry.size = 25 ∧ c7Entry.itemCount = 2 := by
  obtain ⟨key, _, _, hent, _⟩ := node_view lc files n hn
  refine ⟨⟨?_, ?_⟩, eval_merge, rfl, rfl, rfl⟩
  · rw [hent]
    exact buildEntries_paths_nodup (nodeRecords files key) _ "" _
  · intro e he
    rw [hent] at he
    obtain ⟨f2, data, q, _, _, _, _, _, _, hch⟩ :=
      inForest_buildEntries _ "" _ _ _ e he
    rw [hch]
    exact buildEntries_paths_nodup (nodeRecords files key) f2 e.path data.size

/-- Witness for C7 at the merge input. -/
theorem c7_merge_witness :
    (c7Node ∈ buildStorageNodes lcStd demoMerge) ∧
    (((c7Node.entries.map (fun e => e.path)).Nodup ∧
     ∀ e, InForest e c7Node.entries → (e.children.map (fun c => c.path)).Nodup) ∧
    buildStorageNodes lcStd demoMerge = [c7Node] ∧
    c7Node.entries = [c7Entry] ∧ c7Entry.size = 25 ∧ c7Entry.itemCount = 2) :=
  ⟨mem_merge, c7_merge lcStd demoMerge c7Node mem_merge⟩

/-! ### Chain successor machinery for the only-child analysis -/

theorem consecPairs_mem_right {α : Type} : ∀ (l : List α) (a b : α),
    (a, b) ∈ consecPairs l → b ∈ l := by
  intro l
  induction l with
  | nil => intro a b h; simp [consecPairs] at h
  | cons x rest ih =>
    intro a b h
    cases rest with
    | nil => simp [consecPairs] at h
    | cons y rest2 =>
      rw [consecPairs] at h
      rcases List.mem_cons.mp h with heq | h2
      · injection heq with h1 h2
        rw [h2]
        exact List.mem_cons_of_mem x (List.mem_cons_self y rest2)
      · exact List.mem_cons_of_mem x (ih a b h2)

theorem pair_mem_segPrefixes : ∀ (segs t : List String) (s : String) (acc : List String),
    (t ++ [s]) <+: segs →
    ((acc ++ t, acc ++ t ++ [s]) : List String × List String) ∈
      consecPairs (acc :: segPrefixes acc segs) := by
  intro segs
  induction segs with
  | nil =>
    intro t s acc h
    rw [List.prefix_nil] at h
    exact absurd h (by simp)
  | cons s0 rest ih =>
    intro t s acc h
    cases t with
    | nil =>
      have h1 : s = s0 := by simpa using h
      subst h1
      rw [segPrefixes, consecPairs]
      refine List.mem_cons.mpr (Or.inl ?_)
      simp
    | cons t0 t2 =>
      obtain ⟨h1, h2⟩ := List.cons_prefix_cons.mp (by simpa using h)
      subst h1
      have hrec := ih t2 s (acc ++ [t0]) h2
      rw [segPrefixes, consecPairs]
      refine List.mem_cons.mpr (Or.inr ?_)
      have hgoal : ((acc ++ t0 :: t2, acc ++ t0 :: t2 ++ [s]) :
          List String × List String) =
          (acc ++ [t0] ++ t2, acc ++ [t0] ++ t2 ++ [s]) := by
        simp
      rw [hgoal]
      exact hrec

theorem chain_successor (g : StorageUsageFile) (p : String)
    (hp : p ∈ fileChain g) (hne : canonOfFile g ≠ p) :
    ∃ c, (p, c) ∈ consecPairs (fileChain g) := by
  rw [fileChain, ancestorChain_eq] at hp
  obtain ⟨t, ht, heq⟩ := List.mem_map.mp hp
  have hvt : ValidSegs t := validSegs_of_mem_prefixes _ t ht
  have htp : t <+: canonSegs (normalizePath g.path) := by
    rcases List.mem_cons.mp ht with rfl | ht2
    · exact List.nil_prefix
    · obtain ⟨t2, _, hpre, heq2⟩ := (mem_segPrefixes _ [] t).mp ht2
      rw [List.nil_append] at heq2
      rw [heq2]
      exact hpre
  have htne : t ≠ canonSegs (normalizePath g.path) := by
    intro he
    refine hne ?_
    rw [canonOfFile, ← he, heq]
  have hnext : ∃ s, (t ++ [s]) <+: canonSegs (normalizePath g.path) := by
    have hd := List.prefix_iff_eq_append.mp htp
    rcases hdc : (canonSegs (normalizePath g.path)).drop t.length with _ | ⟨s, d2⟩
    · rw [hdc, List.append_nil] at hd
      exact absurd hd htne
    · refine ⟨s, ?_⟩
      rw [← hd, hdc]
      have : t ++ [s] ++ d2 = t ++ s :: d2 := by simp
      rw [← this]
      exact List.prefix_append _ _
  obtain ⟨s, hs⟩ := hnext
  have hpair := pair_mem_segPrefixes (canonSegs (normalizePath g.path)) t s [] hs
  refine ⟨joinSegs (t ++ [s]), ?_⟩
  rw [fileChain, ancestorChain_eq, consecPairs_map]
  refine List.mem_map.mpr ⟨([] ++ t, [] ++ t ++ [s]), hpair, ?_⟩
  simp only [List.nil_append]
  rw [heq]

theorem only_child_size_eq (recs : List StorageUsageFile) (p cp : String)
    (hcl : childListOf (buildChildren recs) p = [cp])
    (hdirect : ∀ f ∈ recs, canonOfFile f ≠ p) :
    sizeLookup (buildStats recs) cp = sizeLookup (buildStats recs) p := by
  obtain ⟨f0, _, hedge⟩ := child_edge_of_mem recs p cp (by rw [hcl]; exact List.mem_cons_self _ _)
  rw [sizeLookup_buildStats, sizeLookup_buildStats, contributorsOf, contributorsOf]
  congr 1
  refine List.filter_congr ?_
  intro g hg
  rw [Bool.eq_iff_iff]
  constructor
  · exact fun h => (contrib_of_child_contrib f0 p cp hedge g h)
  · intro h
    rw [contributesTo, decide_eq_true_eq] at h
    obtain ⟨c2, hc2⟩ := chain_successor g p h (hdirect g hg)
    have hc2mem : c2 ∈ childListOf (buildChildren recs) p := by
      rw [childListOf_buildChildren]
      exact (mem_discoveredChildren recs p c2).mpr ⟨g, hg, hc2⟩
    rw [hcl] at hc2mem
    have hc2e : c2 = cp := by simpa using hc2mem
    subst hc2e
    rw [contributesTo, decide_eq_true_eq]
    exact consecPairs_mem_right _ p c2 hc2

theorem only_child_percent (recs : List StorageUsageFile) (p : String) (f2 : Nat)
    (c : StorageEntry)
    (heq : buildStorageEntriesFor (f2 + 1) p (buildStats recs) (buildChildren recs)
      (sizeLookup (buildStats recs) p) = [c])
    (hT : sizeLookup (buildStats recs) p ≠ 0)
    (hdirect : ∀ f ∈ recs, canonOfFile f ≠ p) :
    c.percent = 100 := by
  have hmem : c ∈ buildStorageEntriesFor (f2 + 1) p (buildStats recs)
      (buildChildren recs) (sizeLookup (buildStats recs) p) := by
    rw [heq]
    exact List.mem_cons_self c []
  obtain ⟨f3, data, _, hch, hst, _, hsz, _, _, hpct, _⟩ := mem_buildEntries hmem
  have hpaths := buildEntries_paths f2 p (buildStats recs) (buildChildren recs)
    (sizeLookup (buildStats recs) p)
    (fun x hx => child_stats_ne_none recs p x hx)
  rw [heq] at hpaths
  have h1 : sortByLe (childLe (buildStats recs)) (childListOf (buildChildren recs) p) =
      [c.path] := by
    rw [← hpaths]
    rfl
  have hperm : (childListOf (buildChildren recs) p).Perm [c.path] := by
    have h2 := sortByLe_perm (childLe (buildStats recs))
      (childListOf (buildChildren recs) p)
    rw [h1] at h2
    exact h2.symm
  have hcl : childListOf (buildChildren recs) p = [c.path] :=
    List.perm_singleton.mp hperm
  have hsize : sizeLookup (buildStats recs) c.path = sizeLookup (buildStats recs) p :=
    only_child_size_eq recs p c.path hcl hdirect
  have hds : data.size = sizeLookup (buildStats recs) p := by
    rw [← hsize, sizeLookup, hst]
  rw [hpct, if_neg hT, hds]
  have hcast : ((sizeLookup (buildStats recs) p : Int) : ℚ) ≠ 0 := by
    exact_mod_cast hT
  rw [div_self hcast, one_mul]

/-- C2 counterexample: in the input with files `"a"` (size 10) and `"a/b"`
(size 5) the entry `"a/b"` is its parent's only child, yet its percent is
one third of 100, because the file sitting directly at `"a"` contributes to
the parent but not to the child. -/
theorem c2_counterexample :
    c2Node ∈ buildStorageNodes lcStd demoOnlyChild ∧
    c2EntryA.children = [c2EntryAB] ∧
    InForest c2EntryA c2Node.entries ∧
    c2EntryAB.percent ≠ 100 := by
  refine ⟨mem_onlyChild, rfl, InForest.here (List.mem_cons_self _ _), ?_⟩
  show ((5 : Int) : ℚ) / ((15 : Int) : ℚ) * 100 ≠ 100
  norm_num

/-- C2 (amended): percent is the entry's size over the immediate parent's
size times 100 (the node's aggregated total for top-level entries), 0 when
the parent size is 0; with non-negative input sizes every percent lies in
`[0, 100]`; and an only child has percent 100 provided the parent's size is
nonzero and no file of the node sits directly at the parent's own path. -/
theorem c2_percent (lc : String → String → Int) (files : List StorageUsageFile)
    (n : StorageNode) (hn : n ∈ buildStorageNodes lc files) :
    ∃ key, nodeRecords files key ≠ [] ∧
      (∀ c ∈ n.entries, c.percent =
        (if n.totalSize = 0 then 0 else (c.size : ℚ) / (n.totalSize : ℚ) * 100)) ∧
      (∀ e, InForest e n.entries → ∀ c ∈ e.children, c.percent =
        (if e.size = 0 then 0 else (c.size : ℚ) / (e.size : ℚ) * 100)) ∧
      ((∀ f ∈ nodeRecords files key, 0 ≤ f.size) →
        ∀ e, InForest e n.entries → 0 ≤ e.percent ∧ e.percent ≤ 100) ∧
      (∀ c, n.entries = [c] → n.totalSize ≠ 0 →
        (∀ f ∈ nodeRecords files key, canonOfFile f ≠ "") → c.percent = 100) ∧
      (∀ e, InForest e n.entries → ∀ c, e.children = [c] → e.size ≠ 0 →
        (∀ f ∈ nodeRecords files key, canonOfFile f ≠ e.path) → c.percent = 100) := by
  obtain ⟨key, hne, htot, hent, _⟩ := node_view lc files n hn
  refine ⟨key, hne, ?_, ?_, ?_, ?_, ?_⟩
  · intro c hc
    rw [hent] at hc
    obtain ⟨f2, data, _, _, hst, _, hsz, _, _, hpct, _⟩ := mem_buildEntries hc
    rw [hpct, htot, ← hsz]
  · intro e he c hc
    rw [hent] at he
    obtain ⟨f2, data, q, _, hst, _, hsz, _, _, hch⟩ :=
      inForest_buildEntries _ "" _ _ _ e he
    rw [hch] at hc
    obtain ⟨f3, data2, _, _, hst2, _, hsz2, _, _, hpct2, _⟩ := mem_buildEntries hc
    rw [hpct2, ← hsz, ← hsz2]
  · intro hpos e he
    rw [hent] at he
    obtain ⟨fuel2, q, he2⟩ :=
      inForest_member_level (buildStats (nodeRecords files key))
        (buildChildren (nodeRecords files key)) _ "" e he
    exact buildEntries_percent_bounds (nodeRecords files key) hpos fuel2 q e he2
  · intro c hcs hT hdirect
    rw [hent] at hcs
    rw [htot] at hT
    exact only_child_percent (nodeRecords files key) "" _ c hcs hT hdirect
  · intro e he c hcs hT hdirect
    rw [hent] at he
    obtain ⟨f2, data, q, _, hst, _, hsz, _, _, hch⟩ :=
      inForest_buildEntries _ "" _ _ _ e he
    cases f2 with
    | zero =>
      rw [hch] at hcs
      exact absurd hcs (by simp [buildStorageEntriesFor])
    | succ f3 =>
      have hds : data.size = sizeLookup (buildStats (nodeRecords files key)) e.path := by
        rw [sizeLookup, hst]
      rw [hch, hds] at hcs
      rw [hsz, hds] at hT
      exact only_child_percent (nodeRecords files key) e.path f3 c hcs hT hdirect

/-- Witness for the amended C2 at the only-child input. -/
theorem c2_percent_witness :
    (c2Node ∈ buildStorageNodes lcStd demoOnlyChild) ∧
    (∃ key, nodeRecords demoOnlyChild key ≠ [] ∧
      (∀ c ∈ c2Node.entries, c.percent =
        (if c2Node.totalSize = 0 then 0
         else (c.size : ℚ) / (c2Node.totalSize : ℚ) * 100)) ∧
      (∀ e, InForest e c2Node.entries → ∀ c ∈ e.children, c.percent =
        (if e.size = 0 then 0 else (c.size : ℚ) / (e.size : ℚ) * 100)) ∧
      ((∀ f ∈ nodeRecords demoOnlyChild key, 0 ≤ f.size) →
        ∀ e, InForest e c2Node.entries → 0 ≤ e.percent ∧ e.percent ≤ 100) ∧
      (∀ c, c2Node.entries = [c] → c2Node.totalSize ≠ 0 →
        (∀ f ∈ nodeRecords demoOnlyChild key, canonOfFile f ≠ "") →
        c.percent = 100) ∧
      (∀ e, InForest e c2Node.entries → ∀ c, e.children = [c] → e.size ≠ 0 →
        (∀ f ∈ nodeRecords demoOnlyChild key, canonOfFile f ≠ e.path) →
        c.percent = 100)) :=
  ⟨mem_onlyChild, c2_percent lcStd demoOnlyChild c2Node mem_onlyChild⟩

/-! ### Fuel sufficiency: nested levels are never starved -/

theorem string_length_pos (s : String) (h : s ≠ "") : 0 < s.length := by
  have : s.data ≠ [] := fun hd => h (String.ext hd)
  have h2 : s.length = s.data.length := rfl
  rw [h2]
  exact List.length_pos.mpr this

theorem child_length_lt (recs : List StorageUsageFile) (q c : String)
    (hc : c ∈ childListOf (buildChildren recs) q) : q.length < c.length := by
  obtain ⟨t, s, f, _, hv, _, hq, hcs⟩ := child_shape recs q c hc
  have hs : ValidSeg s := hv s (List.mem_append_right t (List.mem_cons_self s []))
  cases t with
  | nil =>
    rw [hq, hcs]
    have h1 : joinSegs ([] : List String) = "" := rfl
    have h2 : joinSegs ([] ++ [s]) = s := rfl
    rw [h1, h2]
    exact string_length_pos s hs.1
  | cons t0 t2 =>
    rw [hq, hcs, joinSegs_append (t0 :: t2) [s] (List.cons_ne_nil t0 t2)
      (List.cons_ne_nil s [])]
    rw [String.length_append, String.length_append]
    have h3 : joinSegs [s] = s := rfl
    rw [h3]
    have h4 := string_length_pos s hs.1
    have h5 : ("/" : String).length = 1 := rfl
    omega

theorem filter_length_strict (l : List String) (p c : String) (hc : c ∈ l)
    (hlen : p.length < c.length) :
    (l.filter (fun k => decide (c.length < k.length))).length <
      (l.filter (fun k => decide (p.length < k.length))).length := by
  have heq : l.filter (fun k => decide (c.length < k.length)) =
      (l.filter (fun k => decide (p.length < k.length))).filter
        (fun k => decide (c.length < k.length)) := by
    rw [List.filter_filter]
    refine (List.filter_congr ?_).symm
    intro k _
    by_cases h : c.length < k.length
    · simp [h, lt_trans hlen h]
    · simp [h]
  have hsub : (l.filter (fun k => decide (c.length < k.length))).Sublist
      (l.filter (fun k => decide (p.length < k.length))) := by
    rw [heq]
    exact List.filter_sublist _
  refine lt_of_le_of_ne hsub.length_le ?_
  intro hle
  have heq2 := hsub.eq_of_length hle
  have hcin : c ∈ l.filter (fun k => decide (p.length < k.length)) :=
    List.mem_filter.mpr ⟨hc, by simpa using hlen⟩
  rw [← heq2] at hcin
  have := (List.mem_filter.mp hcin).2
  simp at this

theorem inForest_children_level (recs : List StorageUsageFile) :
    ∀ (fuel : Nat) (p : String) (T : Int) (e : StorageEntry),
    (((buildStats recs).map Prod.fst).filter
        (fun k => decide (p.length < k.length))).length + 1 ≤ fuel →
    InForest e (buildStorageEntriesFor fuel p (buildStats recs) (buildChildren recs) T) →
    ∃ f3, e.children = buildStorageEntriesFor (f3 + 1) e.path (buildStats recs)
        (buildChildren recs) (sizeLookup (buildStats recs) e.path) ∧
      (((buildStats recs).map Prod.fst).filter
        (fun k => decide (e.path.length < k.length))).length + 1 ≤ f3 + 1 := by
  intro fuel
  induction fuel with
  | zero =>
    intro p T e hinv h
    exact absurd h (not_inForest_nil e)
  | succ f ih =>
    intro p T e hinv h
    cases h with
    | here hmem =>
      obtain ⟨f2, data, hf2, hch, hst, _, _, _, _, _, hchildren⟩ := mem_buildEntries hmem
      have hf2e : f2 = f := by omega
      subst hf2e
      have hkey : e.path ∈ (buildStats recs).map Prod.fst := by
        by_contra hk
        rw [← alGet_none_iff] at hk
        rw [hst] at hk
        exact absurd hk (by simp)
      have hlen := child_length_lt recs p e.path hch
      have hstrict := filter_length_strict ((buildStats recs).map Prod.fst)
        p e.path hkey hlen
      have hinv2 : (((buildStats recs).map Prod.fst).filter
          (fun k => decide (e.path.length < k.length))).length + 1 ≤ f2 := by
        omega
      cases f2 with
      | zero => omega
      | succ f3 =>
        refine ⟨f3, ?_, by omega⟩
        rw [hchildren]
        have hds : data.size = sizeLookup (buildStats recs) e.path := by
          rw [sizeLookup, hst]
        rw [hds]
    | deeper hp hin =>
      rename_i pe
      obtain ⟨f2, data, hf2, hch, hst, _, _, _, _, _, hchildren⟩ := mem_buildEntries hp
      have hf2e : f2 = f := by omega
      subst hf2e
      have hkey : pe.path ∈ (buildStats recs).map Prod.fst := by
        by_contra hk
        rw [← alGet_none_iff] at hk
        rw [hst] at hk
        exact absurd hk (by simp)
      have hlen := child_length_lt recs p pe.path hch
      have hstrict := filter_length_strict ((buildStats recs).map Prod.fst)
        p pe.path hkey hlen
      have hinv2 : (((buildStats recs).map Prod.fst).filter
          (fun k => decide (pe.path.length < k.length))).length + 1 ≤ f2 := by
        omega
      rw [hchildren] at hin
      have hds : data.size = sizeLookup (buildStats recs) pe.path := by
        rw [sizeLookup, hst]
      rw [hds] at hin
      exact ih pe.path (sizeLookup (buildStats recs) pe.path) e hinv2 hin

theorem root_fuel_ok (recs : List StorageUsageFile) :
    (((buildStats recs).map Prod.fst).filter
        (fun k => decide (("" : String).length < k.length))).length + 1 ≤
      (buildStats recs).length + 1 := by
  have h1 := List.length_filter_le
    (fun k : String => decide (("" : String).length < k.length))
    ((buildStats recs).map Prod.fst)
  rw [List.length_map] at h1
  omega

theorem inForest_children_level_root (recs : List StorageUsageFile) (e : StorageEntry)
    (he : InForest e (buildStorageEntriesFor ((buildStats recs).length + 1) ""
      (buildStats recs) (buildChildren recs) (sizeLookup (buildStats recs) ""))) :
    ∃ f3, e.children = buildStorageEntriesFor (f3 + 1) e.path (buildStats recs)
        (buildChildren recs) (sizeLookup (buildStats recs) e.path) :=
  (inForest_children_level recs _ "" _ e (root_fuel_ok recs) he).imp
    (fun _ h => h.1)

theorem aggSize_eq (recs : List StorageUsageFile) (q p : String)
    (hch : p ∈ childListOf (buildChildren recs) q) :
    aggSizeOf recs p = sizeLookup (buildStats recs) p := by
  rw [aggSizeOf, sizeLookup_buildStats, contributorsOf]
  congr 1
  exact (List.filter_congr (fun g _ => contributes_eq_specMatch recs q p hch g)).symm

theorem level_filter_eq (recs : List StorageUsageFile) (f2 : Nat) (p : String)
    (T : Int) (s : Int) :
    ((buildStorageEntriesFor (f2 + 1) p (buildStats recs) (buildChildren recs) T).filter
        (fun e => decide (e.size = s))).map (fun e => e.path) =
      (discoveredChildren recs p).filter
        (fun c => decide (aggSizeOf recs c = s)) := by
  rw [buildEntries_filter_size f2 p _ _ T (fun x hx => child_stats_ne_none recs p x hx)]
  rw [childListOf_buildChildren]
  refine List.filter_congr ?_
  intro c hc
  have hc2 : c ∈ childListOf (buildChildren recs) p := by
    rw [childListOf_buildChildren]
    exact hc
  rw [aggSize_eq recs p c hc2]

/-- C3: the children of every entry (and the top-level entries of every node)
are sorted by non-increasing size, equal-size children keeping their
discovery order (the filter of any fixed size equals the same filter of the
discovery-ordered child list); the node list itself is sorted by name under
the locale comparator whenever that comparator is total and transitive. -/
theorem c3_sort (lc : String → String → Int) (files : List StorageUsageFile)
    (n : StorageNode) (hn : n ∈ buildStorageNodes lc files) :
    ∃ key, nodeRecords files key ≠ [] ∧
      (n.entries.Pairwise (fun a b => b.size ≤ a.size) ∧
       ∀ e, InForest e n.entries →
         e.children.Pairwise (fun a b => b.size ≤ a.size)) ∧
      (∀ s : Int,
        ((n.entries.filter (fun e => decide (e.size = s))).map (fun e => e.path) =
          (discoveredChildren (nodeRecords files key) "").filter
            (fun c => decide (aggSizeOf (nodeRecords files key) c = s))) ∧
        ∀ e, InForest e n.entries →
          (e.children.filter (fun c => decide (c.size = s))).map (fun c => c.path) =
            (discoveredChildren (nodeRecords files key) e.path).filter
              (fun c => decide (aggSizeOf (nodeRecords files key) c = s))) ∧
      ((∀ a b, lc a b ≤ 0 ∨ lc b a ≤ 0) →
       (∀ a b c, lc a b ≤ 0 → lc b c ≤ 0 → lc a c ≤ 0) →
       (buildStorageNodes lc files).Pairwise (fun a b => lc a.name b.name ≤ 0)) := by
  obtain ⟨key, hne, _, hent, _⟩ := node_view lc files n hn
  refine ⟨key, hne, ⟨?_, ?_⟩, ?_, ?_⟩
  · rw [hent]
    exact buildEntries_sorted _ "" _ _ _
  · intro e he
    rw [hent] at he
    obtain ⟨f3, hch⟩ := inForest_children_level_root (nodeRecords files key) e he
    rw [hch]
    exact buildEntries_sorted _ e.path _ _ _
  · intro s
    constructor
    · rw [hent]
      exact level_filter_eq (nodeRecords files key) _ "" _ s
    · intro e he
      rw [hent] at he
      obtain ⟨f3, hch⟩ := inForest_children_level_root (nodeRecords files key) e he
      rw [hch]
      exact level_filter_eq (nodeRecords files key) f3 e.path _ s
  · intro htot htrans
    rw [buildStorageNodes]
    by_cases hemp : files.isEmpty
    · rw [if_pos hemp]
      exact List.Pairwise.nil
    · rw [if_neg hemp]
      have hs := sortByLe_sorted (nodeLe lc)
        (fun a b c h1 h2 => by
          rw [nodeLe, decide_eq_true_eq] at h1 h2 ⊢
          exact htrans _ _ _ h1 h2)
        (fun a b => by
          rw [nodeLe, nodeLe, decide_eq_true_eq, decide_eq_true_eq]
          exact htot a.name b.name)
        ((groupFiles files).map (fun kv => mkStorageNode kv.2))
      refine hs.imp ?_
      intro a b hab
      rw [nodeLe, decide_eq_true_eq] at hab
      exact hab

/-- Witness for C3 at the only-child input. -/
theorem c3_sort_witness :
    (c2Node ∈ buildStorageNodes lcStd demoOnlyChild) ∧
    (∃ key, nodeRecords demoOnlyChild key ≠ [] ∧
      (c2Node.entries.Pairwise (fun a b => b.size ≤ a.size) ∧
       ∀ e, InForest e c2Node.entries →
         e.children.Pairwise (fun a b => b.size ≤ a.size)) ∧
      (∀ s : Int,
        ((c2Node.entries.filter (fun e => decide (e.size = s))).map (fun e => e.path) =
          (discoveredChildren (nodeRecords demoOnlyChild key) "").filter
            (fun c => decide (aggSizeOf (nodeRecords demoOnlyChild key) c = s))) ∧
        ∀ e, InForest e c2Node.entries →
          (e.children.filter (fun c => decide (c.size = s))).map (fun c => c.path) =
            (discoveredChildren (nodeRecords demoOnlyChild key) e.path).filter
              (fun c => decide (aggSizeOf (nodeRecords demoOnlyChild key) c = s))) ∧
      ((∀ a b, lcStd a b ≤ 0 ∨ lcStd b a ≤ 0) →
       (∀ a b c, lcStd a b ≤ 0 → lcStd b c ≤ 0 → lcStd a c ≤ 0) →
       (buildStorageNodes lcStd demoOnlyChild).Pairwise
         (fun a b => lcStd a.name b.name ≤ 0))) :=
  ⟨mem_onlyChild, c3_sort lcStd demoOnlyChild c2Node mem_onlyChild⟩

/-! ### Root-level sum partition (empty-path records) -/

theorem joinSegs_eq_empty (t : List String) (hv : ValidSegs t)
    (h : joinSegs t = "") : t = [] := by
  by_contra hne
  exact joinSegs_ne_empty t hne hv h

theorem ite_contrib_sum (f : StorageUsageFile) : ∀ L : List String,
    (L.map (fun c => if contributesTo c f = true then f.size else 0)).sum =
      f.size * (((L.filter (fun c => contributesTo c f)).length : Int)) := by
  intro L
  induction L with
  | nil => simp
  | cons c L2 ih =>
    by_cases h : contributesTo c f = true
    · have hf1 : (c :: L2).filter (fun c => contributesTo c f) =
          c :: L2.filter (fun c => contributesTo c f) := List.filter_cons_of_pos h
      rw [List.map_cons, List.sum_cons, if_pos h, ih, hf1, List.length_cons]
      push_cast
      ring
    · have hf1 : (c :: L2).filter (fun c => contributesTo c f) =
          L2.filter (fun c => contributesTo c f) :=
        List.filter_cons_of_neg (by simpa using h)
      rw [List.map_cons, List.sum_cons, if_neg h, ih, hf1]
      omega

theorem sum_over_children (recs : List StorageUsageFile) (L : List String) :
    (L.map (fun c => sumSizes (recs.filter (contributesTo c)))).sum =
      (recs.map (fun f =>
        f.size * (((L.filter (fun c => contributesTo c f)).length : Int)))).sum := by
  induction recs with
  | nil => simp [sumSizes]
  | cons f fs ih =>
    have h1 : ∀ c : String, sumSizes ((f :: fs).filter (contributesTo c)) =
        (if contributesTo c f = true then f.size else 0) +
          sumSizes (fs.filter (contributesTo c)) := by
      intro c
      by_cases h : contributesTo c f = true
      · rw [List.filter_cons_of_pos h, sumSizes_cons, if_pos h]
      · rw [List.filter_cons_of_neg (by simpa using h), if_neg h, zero_add]
    have h2 : (L.map (fun c => sumSizes ((f :: fs).filter (contributesTo c)))).sum =
        (L.map (fun c => (if contributesTo c f = true then f.size else 0) +
          sumSizes (fs.filter (contributesTo c)))).sum := by
      congr 1
      exact List.map_congr_left (fun c _ => h1 c)
    rw [h2, List.sum_map_add, ih, ite_contrib_sum f L, List.map_cons, List.sum_cons]

theorem fileChain_of_canon_empty (f : StorageUsageFile)
    (h : canonOfFile f = "") : fileChain f = [""] := by
  have hsegs : canonSegs (normalizePath f.path) = [] :=
    joinSegs_eq_empty _ (validSegs_canonOfFile f) h
  rw [fileChain, ancestorChain_eq, hsegs]
  rfl

theorem root_child_count (recs : List StorageUsageFile) (f : StorageUsageFile)
    (hf : f ∈ recs) :
    ((discoveredChildren recs "").filter (fun c => contributesTo c f)).length =
      (if canonOfFile f = "" then 0 else 1) := by
  by_cases hcanon : canonOfFile f = ""
  · rw [if_pos hcanon]
    have hempty : (discoveredChildren recs "").filter (fun c => contributesTo c f) = [] := by
      refine List.filter_eq_nil_iff.mpr ?_
      intro c hc
      have hcne : c ≠ "" := by
        refine child_path_ne_empty recs "" c ?_
        rw [childListOf_buildChildren]
        exact hc
      rw [contributesTo, fileChain_of_canon_empty f hcanon]
      simp [hcne]
    rw [hempty]
    rfl
  · rw [if_neg hcanon]
    have hsegs : canonSegs (normalizePath f.path) ≠ [] := by
      intro h0
      refine hcanon ?_
      rw [canonOfFile, h0]
      rfl
    rcases hsc : canonSegs (normalizePath f.path) with _ | ⟨s0, rest⟩
    · exact absurd hsc hsegs
    · have hvs0 : ValidSeg s0 := by
        have := validSegs_canonOfFile f
        rw [hsc] at this
        exact this s0 (List.mem_cons_self s0 rest)
      have hcongr : ∀ c ∈ discoveredChildren recs "",
          (fun c => contributesTo c f) c = (c == s0) := by
        intro c hc
        have hc2 : c ∈ childListOf (buildChildren recs) "" := by
          rw [childListOf_buildChildren]
          exact hc
        obtain ⟨t, s, g, _, hv, _, hq, hcs⟩ := child_shape recs "" c hc2
        have ht : t = [] :=
          joinSegs_eq_empty t (fun x hx => hv x (List.mem_append_left _ hx)) hq.symm
        subst ht
        have hcse : c = s := hcs
        have hvs : ValidSeg s := hv s (by simp)
        show contributesTo c f = (c == s0)
        rw [Bool.eq_iff_iff, contributesTo, decide_eq_true_eq, beq_iff_eq, hcse]
        rw [fileChain]
        have hj : joinSegs [s] = s := rfl
        rw [← hj, mem_ancestorChain_iff [s] (normalizePath f.path)
          (fun x hx => by rw [List.mem_singleton.mp hx]; exact hvs) (by simp), hsc, hj]
        constructor
        · intro hpre
          exact (List.cons_prefix_cons.mp hpre).1
        · intro he
          exact List.cons_prefix_cons.mpr ⟨he, List.nil_prefix⟩
      rw [List.filter_congr hcongr]
      have hs0mem : s0 ∈ discoveredChildren recs "" := by
        refine (mem_discoveredChildren recs "" s0).mpr ⟨f, hf, ?_⟩
        have hpair := pair_mem_segPrefixes (canonSegs (normalizePath f.path)) [] s0 []
          (by rw [hsc]; exact List.cons_prefix_cons.mpr ⟨rfl, List.nil_prefix⟩)
        rw [fileChain, ancestorChain_eq, consecPairs_map]
        refine List.mem_map.mpr ⟨([] ++ [], [] ++ [] ++ [s0]), hpair, ?_⟩
        rfl
      rw [← List.countP_eq_length_filter]
      have : (discoveredChildren recs "").count s0 = 1 :=
        List.count_eq_one_of_mem (discoveredChildren_nodup recs "") hs0mem
      exact this

theorem ite_partition_sum (recs : List StorageUsageFile) :
    (recs.map (fun f => if canonOfFile f = "" then 0 else f.size)).sum =
      sumSizes recs -
        sumSizes (recs.filter (fun f => decide (canonOfFile f = ""))) := by
  induction recs with
  | nil => simp [sumSizes]
  | cons f fs ih =>
    by_cases h : canonOfFile f = ""
    · rw [List.map_cons, List.sum_cons, if_pos h, sumSizes_cons,
        List.filter_cons_of_pos (by simpa using h), sumSizes_cons]
      omega
    · rw [List.map_cons, List.sum_cons, if_neg h, sumSizes_cons,
        List.filter_cons_of_neg (by simpa using h)]
      omega

theorem root_sum_eq (recs : List StorageUsageFile) :
    sumEntrySizes (buildStorageEntriesFor ((buildStats recs).length + 1) ""
        (buildStats recs) (buildChildren recs) (sizeLookup (buildStats recs) "")) =
      sumSizes recs -
        sumSizes (recs.filter (fun f => decide (canonOfFile f = ""))) := by
  rw [buildEntries_sum _ "" _ _ _ (fun x hx => child_stats_ne_none recs "" x hx)]
  rw [childListOf_buildChildren]
  have h1 : (discoveredChildren recs "").map (fun p => sizeLookup (buildStats recs) p) =
      (discoveredChildren recs "").map
        (fun c => sumSizes (recs.filter (contributesTo c))) := by
    refine List.map_congr_left ?_
    intro c _
    rw [sizeLookup_buildStats]
    rfl
  rw [h1, sum_over_children recs (discoveredChildren recs "")]
  have h2 : ∀ f ∈ recs, f.size *
      ((((discoveredChildren recs "").filter (fun c => contributesTo c f)).length : Int)) =
      (if canonOfFile f = "" then 0 else f.size) := by
    intro f hf
    rw [root_child_count recs f hf]
    by_cases h : canonOfFile f = ""
    · rw [if_pos h, if_pos h]
      simp
    · rw [if_neg h, if_neg h]
      simp
  rw [List.map_congr_left h2, ite_partition_sum recs]

/-- C10 counterexample: with a zero-size record normalizing to the empty path
next to a file `"a"` of size 5, the top-level entry sizes sum exactly to the
node's `totalSize`, so the claimed strict inequality fails. -/
theorem c10_counterexample :
    c10Node ∈ buildStorageNodes lcStd demoEmptyPath ∧
    demoEmptyPath.map (fun f => normalizePath f.path) = ["", "a"] ∧
    sumEntrySizes c10Node.entries = c10Node.totalSize ∧
    ¬ sumEntrySizes c10Node.entries < c10Node.totalSize :=
  ⟨mem_emptyPath, rfl, rfl, by decide⟩

/-- C10 (amended): records whose path normalizes to the empty string are
added to the node's root statistics — `totalSize` sums over all records —
but yield no entry anywhere in the tree; the top-level entry sizes sum to
`totalSize` minus the total size of the empty-canonical-path records, which
is strictly less exactly when that deficit is positive (a zero-size record
leaves the sums equal). -/
theorem c10_empty_paths (lc : String → String → Int) (files : List StorageUsageFile)
    (n : StorageNode) (hn : n ∈ buildStorageNodes lc files) :
    ∃ key, nodeRecords files key ≠ [] ∧
      (∀ e, InForest e n.entries → e.path ≠ "") ∧
      n.totalSize = sumSizes (nodeRecords files key) ∧
      sumEntrySizes n.entries =
        sumSizes (nodeRecords files key) -
          sumSizes ((nodeRecords files key).filter
            (fun f => decide (canonOfFile f = ""))) ∧
      (0 < sumSizes ((nodeRecords files key).filter
          (fun f => decide (canonOfFile f = ""))) →
        sumEntrySizes n.entries < n.totalSize) := by
  obtain ⟨key, hne, htot, hent, _⟩ := node_view lc files n hn
  have htot2 : n.totalSize = sumSizes (nodeRecords files key) := by
    rw [htot, totalSize_eq_sumSizes]
  have hsum : sumEntrySizes n.entries =
      sumSizes (nodeRecords files key) -
        sumSizes ((nodeRecords files key).filter
          (fun f => decide (canonOfFile f = ""))) := by
    rw [hent]
    exact root_sum_eq (nodeRecords files key)
  refine ⟨key, hne, ?_, htot2, hsum, ?_⟩
  · intro e he
    rw [hent] at he
    exact (inForest_stats (nodeRecords files key) e he).2.2.2
  · intro hpos
    rw [hsum, htot2]
    omega

/-- Witness for the amended C10 at the empty-path input. -/
theorem c10_empty_paths_witness :
    (c10Node ∈ buildStorageNodes lcStd demoEmptyPath) ∧
    (∃ key, nodeRecords demoEmptyPath key ≠ [] ∧
      (∀ e, InForest e c10Node.entries → e.path ≠ "") ∧
      c10Node.totalSize = sumSizes (nodeRecords demoEmptyPath key) ∧
      sumEntrySizes c10Node.entries =
        sumSizes (nodeRecords demoEmptyPath key) -
          sumSizes ((nodeRecords demoEmptyPath key).filter
            (fun f => decide (canonOfFile f = ""))) ∧
      (0 < sumSizes ((nodeRecords demoEmptyPath key).filter
          (fun f => decide (canonOfFile f = ""))) →
        sumEntrySizes c10Node.entries < c10Node.totalSize)) :=
  ⟨mem_emptyPath, c10_empty_paths lcStd demoEmptyPath c10Node mem_emptyPath⟩
